import Mathlib

/-!
Verification development for the json-view lazy tree renderer
(src/json-view.js).  The JavaScript source is shallowly embedded below:
pure JS functions become Lean functions, in-place mutation of the node
tree becomes explicit rebuilding of the (immutable) tree value, DOM
elements become `Elem` records attached to nodes, and operations that
can fault at runtime (dereferencing a `null` element, indexing `null`)
return `Option`, with `none` standing for a thrown `TypeError`.
-/

/-! ## JSON values

A `JVal` is a parsed JSON document as held by the JavaScript runtime.
`jnull` doubles as the JS `null` value.  Object entries are listed in
the object's property-enumeration (`for..in`) order, which is the order
`JSON.parse` / object literals expose to the source code; JS objects
cannot carry duplicate keys, so entry lists are assumed duplicate-free
where that matters (only `jsIndex` looks keys up, taking the first hit).
-/

inductive JVal where
  | jnull
  | jbool (b : Bool)
  | jnum (n : Int)
  | jstr (s : String)
  | jarr (elems : List JVal)
  | jobj (entries : List (String × JVal))
deriving Repr

/-- Modelled from the spec: the external *TypeClassifier* collaborator
(`utils/getDataType.js`, absent from `src/`) maps a value to one of the
type tags `null`, `boolean`, `number`, `string`, `array`, `object`. -/
def getDataType : JVal → String
  | .jnull => "null"
  | .jbool _ => "boolean"
  | .jnum _ => "number"
  | .jstr _ => "string"
  | .jarr _ => "array"
  | .jobj _ => "object"

/-- JS `typeof` on a runtime value (`typeof null` is `"object"`,
arrays and objects are `"object"`). -/
def jsTypeof : JVal → String
  | .jnull => "object"
  | .jbool _ => "boolean"
  | .jnum _ => "number"
  | .jstr _ => "string"
  | .jarr _ => "object"
  | .jobj _ => "object"

/-- JS string conversion as used by template interpolation (`${value}`):
`String(null) = "null"`, objects print as `"[object Object]"`, arrays
join their elements with commas (`null` elements print empty). -/
def jsDisplay : JVal → String
  | .jnull => "null"
  | .jbool b => if b then "true" else "false"
  | .jnum n => toString n
  | .jstr s => s
  | .jobj _ => "[object Object]"
  | .jarr xs => String.intercalate "," (xs.map fun v =>
      match v with
      | .jnull => ""
      | .jbool b => if b then "true" else "false"
      | .jnum n => toString n
      | .jstr s => s
      | .jobj _ => "[object Object]"
      | .jarr _ => "")

/-- The own enumerable entries a `for..in` loop sees on a value:
object entries in enumeration order, array elements under their decimal
index keys, nothing for `null` and the other primitives. -/
def jsEnumEntries : JVal → List (String × JVal)
  | .jobj fs => fs
  | .jarr xs => (List.range xs.length).zip xs |>.map (fun p => (toString p.1, p.2))
  | _ => []

/-- `Object.keys(value)` as used by `createNode.isEmptyObject`; only the
object case is ever reached (guarded by the classifier). -/
def jsObjectKeys : JVal → List String
  | .jobj fs => fs.map Prod.fst
  | _ => []

/-- `countElements(obj)` (src/json-view.js:326): counts own enumerable
properties with a `for..in` loop.  A `for..in` over a primitive string
enumerates its character indices; `null`/`undefined`/other primitives
contribute nothing.  The argument is `Option JVal` because the call site
can hand it the JS `undefined` (`none`) produced by a failed lookup. -/
def countElements : Option JVal → Nat
  | some (.jobj fs) => fs.length
  | some (.jarr xs) => xs.length
  | some (.jstr s) => s.length
  | _ => 0

/-! ## JS string primitives used by `resolveref` and `render`

The source applies three string operations to pointer strings and size
labels: `replace(/\//g, "|")`, `replace(/~1/g, "/")`, `split("|")`, and
a first-occurrence `replace("1", n)`.  Each is modelled by a
structurally recursive function on the string's character list, with the
same leftmost, non-overlapping matching JS uses. -/

/-- `s.replace(/\//g, "|")`: every `/` becomes `|`. -/
def slashToPipe (l : List Char) : List Char :=
  l.map fun c => if c = '/' then '|' else c

/-- `s.replace(/~1/g, "/")`: every (leftmost, non-overlapping) `~1`
becomes `/`. -/
def unescTilde : List Char → List Char
  | [] => []
  | '~' :: '1' :: rest => '/' :: unescTilde rest
  | c :: rest => c :: unescTilde rest

/-- `s.split("|")`: split on every `|`, keeping empty segments. -/
def splitPipe : List Char → List (List Char)
  | [] => [[]]
  | '|' :: rest =>
      [] :: splitPipe rest
  | c :: rest =>
      match splitPipe rest with
      | [] => [[c]]
      | g :: gs => (c :: g) :: gs

/-- `s.replace("1", r)` with a plain-string pattern: only the first
`1` is replaced. -/
def replFirstOne (rep : List Char) : List Char → List Char
  | [] => []
  | '1' :: rest => rep ++ rest
  | c :: rest => c :: replFirstOne rep rest

/-- String-level wrapper for the first-`"1"` replacement used to patch
size labels. -/
def jsReplaceFirstOne (s : String) (rep : String) : String :=
  ⟨replFirstOne rep.data s.data⟩

/-! ## JS property access

`obj[k]` on a JS value: indexing `null` (or `undefined`) throws a
`TypeError`; indexing any other value yields the property value or
`undefined`.  The outer `Option` is the throw, the inner `Option` is
`undefined`.  Arrays answer their canonical decimal indices and
`length`; strings answer character indices and `length`. -/

def jsIndex : JVal → String → Option (Option JVal)
  | .jnull, _ => none
  | .jobj fs, k => some ((fs.find? (fun p => p.1 = k)).map Prod.snd)
  | .jarr xs, k =>
      if k = "length" then some (some (.jnum xs.length))
      else match k.toNat? with
        | some i => if toString i = k then some (xs.get? i) else some none
        | none => some none
  | .jstr s, k =>
      if k = "length" then some (some (.jnum s.length))
      else match k.toNat? with
        | some i =>
            if toString i = k then some ((s.data.get? i).map (fun c => .jstr ⟨[c]⟩))
            else some none
        | none => some none
  | .jnum _, _ => some none
  | .jbool _, _ => some none

/-- Two-step access `root[k1][k2]`: if the first step yields
`undefined`, the second step throws. -/
def jsIndex2 (root : JVal) (k1 k2 : String) : Option (Option JVal) :=
  match jsIndex root k1 with
  | none => none
  | some none => none
  | some (some v) => jsIndex v k2

/-! ## Elements and nodes

An `Elem` is the state of a node's single-line DOM representation (the
`lineEl` built by `createNodeElement`): its `hidden` class, the caret
glyph, and the texts of its `json-key` / `json-size` / `json-value`
divs.  `id` records the order of creation by the view-primitive layer
(`element('div')`, modelled from the spec's `createElement`), so that
re-creation of an element is observable.  Wrapper `json-container` divs
carry no node state and are not modelled. -/

structure Elem where
  id : Nat
  hidden : Bool
  hasCaret : Bool
  caretDown : Bool
  keyText : String
  sizeText : Option String
  valueText : Option String
  valueType : Option String
  indentPx : Nat
deriving Repr, DecidableEq

/-- The scalar fields of a node object (everything except `children`).
`parent` is modelled by the Boolean `hasParent` (the source only ever
tests `node.parent !== null` or reads the parent during the render walk,
where the parent is available from the recursion); `dispose` records
whether a click-listener registration is held; `parsedData` is the
shared document root. -/
structure NodeInfo where
  key : Option String
  value : JVal
  type_ : Option String
  hasParent : Bool
  depth : Nat
  isExpanded : Bool
  isPending : Bool
  parsedData : JVal
  el : Option Elem
  dispose : Bool
deriving Repr

inductive Node where
  | mk (info : NodeInfo) (children : List Node)

def Node.info : Node → NodeInfo
  | .mk i _ => i

def Node.children : Node → List Node
  | .mk _ cs => cs

theorem Node.mk_info_children (n : Node) : Node.mk n.info n.children = n := by
  cases n
  rfl

mutual

def Node.size : Node → Nat
  | .mk _ cs => 1 + Node.sizeList cs

def Node.sizeList : List Node → Nat
  | [] => 0
  | c :: cs => Node.size c + Node.sizeList cs

end

mutual

/-- Custom recursion principle: to prove `P` of every node it suffices
to prove it of `.mk i cs` assuming it of every child in `cs`. -/
def Node.recOnMem {P : Node → Prop}
    (h : ∀ i cs, (∀ c ∈ cs, P c) → P (.mk i cs)) : ∀ n, P n
  | .mk i cs => h i cs (Node.recOnMemList h cs)

/-- List side of `Node.recOnMem`. -/
def Node.recOnMemList {P : Node → Prop}
    (h : ∀ i cs, (∀ c ∈ cs, P c) → P (.mk i cs)) :
    ∀ (cs : List Node), ∀ c ∈ cs, P c
  | [], c, hc => absurd hc (List.not_mem_nil c)
  | d :: ds, c, hc =>
      Or.elim (List.mem_cons.mp hc)
        (fun h1 => h1 ▸ Node.recOnMem h d)
        (fun h2 => Node.recOnMemList h ds c h2)

end

/-! ## TreeBuilder: `createNode`, `createSubnode`, `create` -/

/-- `isEmptyObject` inside `createNode`: the classifier tags the value
`object` and `Object.keys` is empty (`&&` short-circuits, so
`Object.keys` is only consulted on objects). -/
def isEmptyObject (v : JVal) : Bool :=
  getDataType v = "object" && (jsObjectKeys v).length = 0

/-- The option bag handed to `createNode`; `none` is an absent (JS
`undefined`) entry.  `hasParent` is the truthiness of `opt.parent`
(a node object is always truthy).  `opt.children`, `opt.el` and
`opt.isExpanded` are never supplied by the source's call sites. -/
structure CreateOpts where
  key : Option String := none
  value : Option JVal := none
  hasParent : Bool := false
  type_ : Option String := none
  depth : Nat := 0
  isPending : Bool := false
  parsedData : JVal := .jnull

/-- `createNode(opt)` (src/json-view.js:229): `opt.key || null` coerces
the falsy key `""` to `null`; the value is taken with an own-property
check (`opt.hasOwnProperty('value')`), so falsy values pass through
unchanged, an absent value becomes `null`, and an empty object becomes
the leaf sentinel string `"{}"`; `opt.type || null` likewise coerces a
falsy tag; `depth: opt.depth || 0` agrees with the supplied depth
(`0 || 0` is `0`); `children` starts empty, `el` and `dispose` null,
`isExpanded` false. -/
def createNode (opt : CreateOpts) : Node :=
  .mk
    { key := match opt.key with
        | none => none
        | some s => if s = "" then none else some s
      value := match opt.value with
        | none => .jnull
        | some v => if isEmptyObject v then .jstr "\x7b\x7d" else v
      type_ := match opt.type_ with
        | none => none
        | some s => if s = "" then none else some s
      hasParent := opt.hasParent
      depth := opt.depth
      isExpanded := false
      isPending := opt.isPending
      parsedData := opt.parsedData
      el := none
      dispose := false }
    []

/-- The `createNode` call of the `for..in` body of `createSubnode`
(src/json-view.js:271), for the property `(k, v)` of a node of depth
`d`: a child at depth `d + 1` with `isPending = (node.depth > 1 &&
!late)`. -/
def childBase (k : String) (v : JVal) (d : Nat) (pd : JVal) (late : Bool) : NodeInfo :=
  (createNode
    { key := some k, value := some v, depth := d + 1,
      type_ := some (getDataType v), hasParent := true,
      isPending := (decide (d > 1) && !late), parsedData := pd }).info

mutual

/-- `createSubnode(data, node, late)` (src/json-view.js:263), viewed as
the children list it pushes onto a node of depth `d` holding raw value
`data`: one child per `for..in` entry (objects and arrays; `typeof
null` is `"object"` but enumerates nothing, other scalars fail the
`typeof` guard), each child created by `createNode` at depth `d + 1`
with `isPending = (node.depth > 1 && !late)`, then recursively given
its own children. -/
def nodeChildren (data : JVal) (d : Nat) (pd : JVal) (late : Bool) : List Node :=
  match data with
  | .jobj fs => nodeChildrenObj fs d pd late
  | .jarr xs => nodeChildrenArr xs 0 d pd late
  | _ => []

/-- Object half of the `for..in` loop in `createSubnode`. -/
def nodeChildrenObj : List (String × JVal) → Nat → JVal → Bool → List Node
  | [], _, _, _ => []
  | (k, v) :: rest, d, pd, late =>
      .mk (childBase k v d pd late) (nodeChildren v (d + 1) pd late)
        :: nodeChildrenObj rest d pd late

/-- Array half of the `for..in` loop in `createSubnode` (index keys are
their decimal strings). -/
def nodeChildrenArr : List JVal → Nat → Nat → JVal → Bool → List Node
  | [], _, _, _, _ => []
  | v :: rest, i, d, pd, late =>
      .mk (childBase (toString i) v d pd late) (nodeChildren v (d + 1) pd late)
        :: nodeChildrenArr rest (i + 1) d pd late

end

/-- One full `for..in` step of `createSubnode`: the `createNode` call
followed by the recursive `createSubnode` on the property value. -/
def childNode (k : String) (v : JVal) (d : Nat) (pd : JVal) (late : Bool) : Node :=
  .mk (childBase k v d pd late) (nodeChildren v (d + 1) pd late)

/-- `create(jsonData)` (src/json-view.js:295) applied to already-parsed
data: builds the root node (key and type are the root's classifier tag,
depth 0, not pending, no parent), stores the parsed document on it,
then runs `createSubnode` over the document with `late = false`. -/
def create (parsedData : JVal) : Node :=
  let root := createNode
    { value := some parsedData,
      key := some (getDataType parsedData),
      type_ := some (getDataType parsedData), isPending := false }
  .mk { root.info with parsedData := parsedData }
    (nodeChildren parsedData 0 parsedData false)

/-- `getJsonObject(data)` (src/json-view.js:286): a string input is fed
to `JSON.parse` (a platform builtin, here an explicit parameter `parse`
whose `Except.error` is a thrown `ParseError`); any other value passes
through untouched. -/
def getJsonObject (parse : String → Except String JVal) : JVal → Except String JVal
  | .jstr s => parse s
  | v => .ok v

/-- `create` as called by the host with a document-or-text argument:
parse-or-pass-through, then build.  A `ParseError` propagates to the
caller (there is no `try` in the source). -/
def createFrom (parse : String → Except String JVal) (input : JVal) : Except String Node :=
  (getJsonObject parse input).map create

/-! ## PresentationBinder: `createNodeElement` and the caret helpers -/

/-- `getSizeString(node)` inside `createNodeElement`: `[n]` for arrays,
`{n}` for objects, otherwise JS `null`, which the template interpolates
as the text `null`. -/
def getSizeString (t : Option String) (len : Nat) : String :=
  if t = some "array" then "[" ++ toString len ++ "]"
  else if t = some "object" then "\x7b" ++ toString len ++ "\x7d"
  else "null"

/-- `createNodeElement(node)` (src/json-view.js:173): containers render
the caret template (key plus size label, caret initially right); leaves
render key/separator/value with the `value === ""` and `value === '{}'`
special cases; every line except the root's (`node.parent !== null`)
starts hidden; indentation is `depth * 18` px.  `id` is the creation
counter of the view-primitive layer's `element('div')`. -/
def createNodeElement (n : Node) (cnt : Nat) : Elem :=
  if n.children.isEmpty then
    { id := cnt
      hidden := n.info.hasParent
      hasCaret := false
      caretDown := false
      keyText := match n.info.key with | none => "null" | some s => s
      sizeText := none
      valueText := some (match n.info.value with
        | .jstr "" => "\"\""
        | v => jsDisplay v)
      valueType := some (match n.info.value with
        | .jstr s => if s = "\x7b\x7d" then "object" else "string"
        | v => jsTypeof v)
      indentPx := n.info.depth * 18 }
  else
    { id := cnt
      hidden := n.info.hasParent
      hasCaret := true
      caretDown := false
      keyText := match n.info.key with | none => "null" | some s => s
      sizeText := some (getSizeString n.info.type_ n.children.length)
      valueText := none
      valueType := none
      indentPx := n.info.depth * 18 }

/-- The per-node work shared by the `render` walk and the toggle walk:
build the line element and store it on the node; for containers,
`listen` (the spec's view-primitive `subscribe`) wires the caret click
and its unsubscribe handle lands in `node.dispose`. -/
def visitCreateEl (i : NodeInfo) (cs : List Node) (cnt : Nat) : NodeInfo × Nat :=
  let e := createNodeElement (.mk i cs) cnt
  ({ i with el := some e, dispose := if cs.isEmpty then i.dispose else true }, cnt + 1)

/-- `setCaretIconDown(node)` (src/json-view.js:93): childless nodes are
untouched; otherwise `node.el.querySelector` throws on a null element;
the `.fas` icon exists exactly on caret (container) templates, and
`classList.replace` turns a right caret down (a no-op if it is already
down). -/
def setCaretIconDownE (n : Node) : Option Node :=
  match n with
  | .mk i cs =>
      if cs.isEmpty then some (.mk i cs)
      else match i.el with
        | none => none
        | some e =>
            some (.mk { i with
              el := some (if e.hasCaret then { e with caretDown := true } else e) } cs)

/-- `setCaretIconRight(node)` (src/json-view.js:102): mirror image of
`setCaretIconDown`. -/
def setCaretIconRightE (n : Node) : Option Node :=
  match n with
  | .mk i cs =>
      if cs.isEmpty then some (.mk i cs)
      else match i.el with
        | none => none
        | some e =>
            some (.mk { i with
              el := some (if e.hasCaret then { e with caretDown := false } else e) } cs)

/-! ## Hiding and revealing subtrees -/

mutual

/-- The `forEach` loop of `hideNodeChildren` (src/json-view.js:75) over
a children list: visit each child in order. -/
def hideChildrenListE : List Node → Option (List Node)
  | [] => some []
  | c :: cs => do
      let c2 ← hideChildVisitE c
      let rest ← hideChildrenListE cs
      some (c2 :: rest)

/-- The `forEach` body of `hideNodeChildren`: add the hidden class to
the child's element (throwing on a missing element) and recurse into
the child's own children exactly when the child is itself expanded. -/
def hideChildVisitE : Node → Option Node
  | .mk ci ccs =>
      match ci.el with
      | none => none
      | some e => do
          let ccs2 ← if ci.isExpanded then hideChildrenListE ccs else some ccs
          some (.mk { ci with el := some { e with hidden := true } } ccs2)

end

/-- `hideNodeChildren(node)`: the node itself is untouched. -/
def hideNodeChildrenE : Node → Option Node
  | .mk i cs => (hideChildrenListE cs).map (fun cs2 => .mk i cs2)

mutual

/-- The `forEach` loop of `showNodeChildren` (src/json-view.js:84) over
a children list: visit each child in order. -/
def showChildrenListE : List Node → Option (List Node)
  | [] => some []
  | c :: cs => do
      let c2 ← showChildVisitE c
      let rest ← showChildrenListE cs
      some (c2 :: rest)

/-- The `forEach` body of `showNodeChildren`: remove the hidden class
from the child's element (throwing on a missing element) and recurse
into the child's own children exactly when the child is itself
expanded. -/
def showChildVisitE : Node → Option Node
  | .mk ci ccs =>
      match ci.el with
      | none => none
      | some e => do
          let ccs2 ← if ci.isExpanded then showChildrenListE ccs else some ccs
          some (.mk { ci with el := some { e with hidden := false } } ccs2)

end

/-- `showNodeChildren(node)`: the node itself is untouched. -/
def showNodeChildrenE : Node → Option Node
  | .mk i cs => (showChildrenListE cs).map (fun cs2 => .mk i cs2)

/-! ## TreeWalker, programmatic expand/collapse -/

mutual

/-- `traverse(node, callback)` (src/json-view.js:215) with a pure
observation callback: the depth-first pre-order list of visited nodes'
scalar fields. -/
def walkCollect : Node → List NodeInfo
  | .mk i cs => i :: walkCollectList cs

/-- List side of `walkCollect`. -/
def walkCollectList : List Node → List NodeInfo
  | [] => []
  | c :: cs => walkCollect c ++ walkCollectList cs

end

mutual

/-- `expand(node)` (src/json-view.js:359): walks the subtree removing
the hidden class from every element (throwing where an element is
missing), setting every `isExpanded`, and turning container carets
down. -/
def expandE : Node → Option Node
  | .mk i cs =>
      match i.el with
      | none => none
      | some e => do
          let e1 := { e with hidden := false }
          let e2 := if cs.isEmpty then e1
            else if e1.hasCaret then { e1 with caretDown := true } else e1
          let cs2 ← expandListE cs
          some (.mk { i with el := some e2, isExpanded := true } cs2)

/-- List side of `expandE`. -/
def expandListE : List Node → Option (List Node)
  | [] => some []
  | c :: cs => do
      let c2 ← expandE c
      let cs2 ← expandListE cs
      some (c2 :: cs2)

end

mutual

/-- The walk inside `collapse(node)` (src/json-view.js:367), carrying
the collapsed node's depth: clear `isExpanded` everywhere, hide every
line strictly deeper than that depth, and turn container carets
right. -/
def collapseGoE (rootDepth : Nat) : Node → Option Node
  | .mk i cs => do
      let el1 ← if i.depth > rootDepth then
          match i.el with
          | none => none
          | some e => some (some { e with hidden := true })
        else some i.el
      let el2 ← if cs.isEmpty then some el1
        else match el1 with
          | none => none
          | some e => some (some (if e.hasCaret then { e with caretDown := false } else e))
      let cs2 ← collapseListE rootDepth cs
      some (.mk { i with isExpanded := false, el := el2 } cs2)

/-- List side of `collapseGoE`. -/
def collapseListE (rootDepth : Nat) : List Node → Option (List Node)
  | [] => some []
  | c :: cs => do
      let c2 ← collapseGoE rootDepth c
      let cs2 ← collapseListE rootDepth cs
      some (c2 :: cs2)

end

/-- `collapse(node)`: the walk compares depths against the collapsed
node's own depth. -/
def collapseE (n : Node) : Option Node := collapseGoE n.info.depth n

/-! ## ReferenceResolver -/

/-- `resolveref(node)` (src/json-view.js:150): reads the first child's
value (reading `children[0]` of a childless node, or calling `.replace`
on a non-string value, throws), rewrites `/` to `|` then `~1` to `/`,
splits on `|`, and looks up `node.parsedData[parts[1]][parts[2]]`.
A missing `parts[k]` indexes with the string `"undefined"` (JS
stringifies an undefined property key).  The outer `Option` is a
throw, the inner one a JS `undefined` result. -/
def resolverefE (n : Node) : Option (Option JVal) :=
  match n.children.head? with
  | none => none
  | some c0 =>
      match c0.info.value with
      | .jstr s =>
          let parts := (splitPipe (unescTilde (slashToPipe s.data))).map
            (fun l => String.mk l)
          let p1 := (parts.get? 1).getD "undefined"
          let p2 := (parts.get? 2).getD "undefined"
          jsIndex2 n.info.parsedData p1 p2
      | _ => none

/-- `extendNodeElementByRef(node, target)` (src/json-view.js:161):
resolves the pointer, runs `createSubnode` over the resolved value with
`late = false` (appending the new children; a resolution to `undefined`
enumerates nothing), then `children.splice(0, 1)` removes the
placeholder.  The `target` parameter is unused by the source body. -/
def extendNodeElementByRefE (n : Node) : Option Node :=
  match resolverefE n with
  | none => none
  | some d =>
      let kids := match d with
        | some v => nodeChildren v n.info.depth n.info.parsedData false
        | none => []
      some (.mk n.info ((n.children ++ kids).drop 1))

/-! ## ExpansionController: `toggleNode` -/

mutual

/-- The `traverse` call inside `toggleNode`'s first-expansion branch
(src/json-view.js:130): every node of the subtree gets a freshly
created element (the append into the new container skips `$ref`-keyed
lines, but the element is still created and stored) and `isPending` is
cleared everywhere. -/
def travCreate : Node → Nat → Node × Nat
  | .mk i cs, cnt =>
      let p := visitCreateEl i cs cnt
      let q := travCreateList cs p.2
      (.mk { p.1 with isPending := false } q.1, q.2)

/-- List side of `travCreate`. -/
def travCreateList : List Node → Nat → List Node × Nat
  | [], cnt => ([], cnt)
  | c :: cs, cnt =>
      let p := travCreate c cnt
      let q := travCreateList cs p.2
      (p.1 :: q.1, q.2)

end

/-- `toggleNode(caretEl, node)` (src/json-view.js:111).  The
`setTimeout` continuations resume on the same logical thread after the
caret flip and are inlined in order; cursor styling, the fresh
`json-container` wrapper and `replaceWith` are DOM plumbing carrying no
node state and are not modelled.  Reading `node.children[0]` of a
childless node throws before the pending test. -/
def toggleNodeE (n : Node) (cnt : Nat) : Option (Node × Nat) :=
  if n.info.isExpanded then do
    let n1 := Node.mk { n.info with isExpanded := false } n.children
    let n2 ← setCaretIconRightE n1
    let n3 ← hideNodeChildrenE n2
    some (n3, cnt)
  else do
    let n1 := Node.mk { n.info with isExpanded := true } n.children
    let n2 ← setCaretIconDownE n1
    match n2.children.head? with
    | none => none
    | some c0 =>
      if c0.info.isPending then do
        let n3 ← if c0.info.key = some "$ref" then extendNodeElementByRefE n2 else some n2
        let p := travCreate n3 cnt
        let n5 ← expandE p.1
        let n6 ← showNodeChildrenE n5
        some (n6, p.2)
      else do
        let n3 ← showNodeChildrenE n2
        some (n3, cnt)

/-! ## `render` -/

/-- The `render` callback (src/json-view.js:343) applied to one visited
node, with its parent in scope: create the element when the node is not
pending; for a pending `$ref` placeholder, resolve the parent's pointer
and patch the first `1` of the parent's size label
(`node.parent.el.children[2]`) to the resolved element count, throwing
if the parent's element is null; other pending nodes are skipped.
Returns the possibly patched parent element, the node's updated scalar
fields, and the advanced creation counter. -/
def renderVisit (parentOrig : Node) (parentEl : Option Elem)
    (ci : NodeInfo) (ccs : List Node) (cnt : Nat) :
    Option (Option Elem × NodeInfo × Nat) :=
  if ci.isPending then
    if ci.key = some "$ref" then
      match resolverefE parentOrig with
      | none => none
      | some d =>
          match parentEl with
          | none => none
          | some pe =>
              let patched :=
                some (jsReplaceFirstOne (pe.sizeText.getD "") (toString (countElements d)))
              let pe2 := match pe.sizeText with
                | some _ => { pe with sizeText := patched }
                | none => pe
              some (some pe2, ci, cnt)
    else some (parentEl, ci, cnt)
  else some (parentEl, (visitCreateEl ci ccs cnt).1, (visitCreateEl ci ccs cnt).2)

/-- The children's share of the pre-order `render` walk: visit each
child (patching the parent's element where the callback does), then
recurse into it with the child itself as parent.  `parentOrig` is the
parent as it stood before the walk; only its immutable
`children[0].value` and `parsedData` are consulted by
`resolveref(node.parent)`. -/
def renderKidsE (parentOrig : Node) (parentEl : Option Elem) :
    List Node → Nat → Option (Option Elem × List Node × Nat)
  | [], cnt => some (parentEl, [], cnt)
  | .mk ci ccs :: cs, cnt => do
      let v ← renderVisit parentOrig parentEl ci ccs cnt
      let inner ← renderKidsE (.mk ci ccs) v.2.1.el ccs v.2.2
      let outer ← renderKidsE parentOrig v.1 cs inner.2.2
      some (outer.1, (Node.mk { v.2.1 with el := inner.1 } inner.2.1) :: outer.2.1,
        outer.2.2)

/-- `render(tree, targetElement)` (src/json-view.js:340): the root is
visited with a null parent (a pending `$ref` root would dereference
`null.el` and throw; a built root is never pending), then the subtree
is walked.  Mounting the container into `targetElement` is DOM plumbing
and not modelled; the updated tree and counter are returned. -/
def renderE (t : Node) (cnt : Nat) : Option (Node × Nat) :=
  match t with
  | .mk i cs =>
      if i.isPending then
        if i.key = some "$ref" then none
        else do
          let r ← renderKidsE (.mk i cs) i.el cs cnt
          some (.mk { i with el := r.1 } r.2.1, r.2.2)
      else do
        let p := visitCreateEl i cs cnt
        let r ← renderKidsE (.mk i cs) p.1.el cs p.2
        some (.mk { p.1 with el := r.1 } r.2.1, r.2.2)

/-! ## Proof infrastructure

Boolean tree predicates, pure (fault-free) forms of the walks, and the
lemmas connecting them to the `Option`-valued embeddings. -/

theorem Node.info_mk (i : NodeInfo) (cs : List Node) : (Node.mk i cs).info = i := rfl

theorem Node.children_mk (i : NodeInfo) (cs : List Node) :
    (Node.mk i cs).children = cs := rfl

mutual

/-- `p` holds of every node (its scalar fields and children list) in
the subtree. -/
def allB (p : NodeInfo → List Node → Bool) : Node → Bool
  | .mk i cs => p i cs && allListB p cs

/-- List side of `allB`. -/
def allListB (p : NodeInfo → List Node → Bool) : List Node → Bool
  | [] => true
  | c :: cs => allB p c && allListB p cs

end

/-- The node's element exists. -/
def elSomeP (i : NodeInfo) (_ : List Node) : Bool := i.el.isSome

/-- The node's element exists, records container-ness in its caret, and
the node is no longer pending — the state `travCreate` leaves behind. -/
def elShapeP (i : NodeInfo) (cs : List Node) : Bool :=
  match i.el with
  | some e => (e.hasCaret == !cs.isEmpty) && !i.isPending
  | none => false

/-- Fully materialized and revealed: expanded, not pending, element
present and visible, caret recording container-ness and pointing down
on containers — the state after a first-time lazy materialization. -/
def matFullP (i : NodeInfo) (cs : List Node) : Bool :=
  match i.el with
  | some e => i.isExpanded && !i.isPending && !e.hidden &&
      (e.hasCaret == !cs.isEmpty) && (cs.isEmpty || e.caretDown)
  | none => false

/-- The node's element, if any, is visible. -/
def unhiddenP (i : NodeInfo) (_ : List Node) : Bool :=
  match i.el with
  | some e => !e.hidden
  | none => true

/-- The node is expanded. -/
def expandedP (i : NodeInfo) (_ : List Node) : Bool := i.isExpanded

mutual

/-- Apply `f` to every element in the subtree (the node's own and all
descendants'). -/
def mapElAll (f : Elem → Elem) : Node → Node
  | .mk i cs => .mk { i with el := i.el.map f } (mapElAllList f cs)

/-- List side of `mapElAll`. -/
def mapElAllList (f : Elem → Elem) : List Node → List Node
  | [] => []
  | c :: cs => mapElAll f c :: mapElAllList f cs

end

mutual

/-- Pure form of the hide/show children walk: set each child's
element's hidden class to `b` and recurse exactly into expanded
children. -/
def setHidList (b : Bool) : List Node → List Node
  | [] => []
  | c :: cs => setHidVisit b c :: setHidList b cs

/-- Visit of one child in `setHidList`. -/
def setHidVisit (b : Bool) : Node → Node
  | .mk ci ccs =>
      .mk { ci with el := ci.el.map (fun e => { e with hidden := b }) }
        (if ci.isExpanded then setHidList b ccs else ccs)

end

mutual

/-- Pure form of `expand`: what `expandE` returns when no element is
missing (identity on a node with a missing element). -/
def expandPure : Node → Node
  | .mk i cs =>
      match i.el with
      | none => .mk i cs
      | some e =>
          let e1 := { e with hidden := false }
          let e2 := if cs.isEmpty then e1
            else if e1.hasCaret then { e1 with caretDown := true } else e1
          .mk { i with el := some e2, isExpanded := true } (expandPureList cs)

/-- List side of `expandPure`. -/
def expandPureList : List Node → List Node
  | [] => []
  | c :: cs => expandPure c :: expandPureList cs

end

/-- The toggled node's first child is pending (`node.children[0]`
exists and `isPending` holds of it). -/
def firstChildPendingB (n : Node) : Bool :=
  match n.children.head? with
  | some c => c.info.isPending
  | none => false

theorem allB_mk (p : NodeInfo → List Node → Bool) (i : NodeInfo) (cs : List Node) :
    allB p (.mk i cs) = (p i cs && allListB p cs) := rfl

theorem allListB_eq_true_iff (p : NodeInfo → List Node → Bool) (cs : List Node) :
    allListB p cs = true ↔ ∀ c ∈ cs, allB p c = true := by
  induction cs with
  | nil => simp [allListB]
  | cons c cs ih => simp [allListB, ih]

theorem allB_imp (p q : NodeInfo → List Node → Bool)
    (hpq : ∀ i cs, p i cs = true → q i cs = true) :
    ∀ n, allB p n = true → allB q n = true := by
  refine Node.recOnMem ?_
  intro i cs ih h
  rw [allB_mk] at h ⊢
  simp only [Bool.and_eq_true] at h ⊢
  refine ⟨hpq _ _ h.1, ?_⟩
  have h2 := h.2
  rw [allListB_eq_true_iff] at h2 ⊢
  exact fun c hc => ih c hc (h2 c hc)

theorem allListB_imp (p q : NodeInfo → List Node → Bool)
    (hpq : ∀ i cs, p i cs = true → q i cs = true)
    (cs : List Node) (h : allListB p cs = true) : allListB q cs = true := by
  rw [allListB_eq_true_iff] at h ⊢
  exact fun c hc => allB_imp p q hpq c (h c hc)

theorem mapElAllList_length (f : Elem → Elem) (cs : List Node) :
    (mapElAllList f cs).length = cs.length := by
  induction cs with
  | nil => rfl
  | cons c cs ih => simp [mapElAllList, ih]

theorem setHidList_length (b : Bool) (cs : List Node) :
    (setHidList b cs).length = cs.length := by
  induction cs with
  | nil => rfl
  | cons c cs ih => simp [setHidList, ih]

theorem expandPureList_length (cs : List Node) :
    (expandPureList cs).length = cs.length := by
  induction cs with
  | nil => rfl
  | cons c cs ih => simp [expandPureList, ih]

theorem travCreateList_length (cs : List Node) (cnt : Nat) :
    (travCreateList cs cnt).1.length = cs.length := by
  induction cs generalizing cnt with
  | nil => rfl
  | cons c cs ih => simp [travCreateList, ih]

theorem isEmpty_of_length_eq {as bs : List Node} (h : as.length = bs.length) :
    as.isEmpty = bs.isEmpty := by
  cases as <;> cases bs <;> simp_all

theorem showList_eq_of (cs : List Node)
    (hv : ∀ c ∈ cs, allB elSomeP c = true → showChildVisitE c = some (setHidVisit false c))
    (hall : allListB elSomeP cs = true) :
    showChildrenListE cs = some (setHidList false cs) := by
  induction cs with
  | nil => rfl
  | cons c cs ih =>
      rw [allListB] at hall
      simp only [Bool.and_eq_true] at hall
      have hc := hv c (List.mem_cons_self c cs) hall.1
      have hrest := ih (fun d hd => hv d (List.mem_cons_of_mem c hd)) hall.2
      simp [showChildrenListE, hc, hrest, setHidList]

theorem showVisit_eq :
    ∀ n, allB elSomeP n = true → showChildVisitE n = some (setHidVisit false n) := by
  refine Node.recOnMem ?_
  intro i cs ih h
  rw [allB_mk] at h
  simp only [Bool.and_eq_true] at h
  obtain ⟨h1, h2⟩ := h
  cases hel : i.el with
  | none => rw [elSomeP, hel] at h1; simp at h1
  | some e =>
      cases hexp : i.isExpanded with
      | true =>
          have hlist := showList_eq_of cs (fun c hc _ => ih c hc (by
            rw [allListB_eq_true_iff] at h2
            exact h2 c hc)) h2
          simp [showChildVisitE, setHidVisit, hel, hexp, hlist]
      | false => simp [showChildVisitE, setHidVisit, hel, hexp]

theorem showList_eq (cs : List Node) (hall : allListB elSomeP cs = true) :
    showChildrenListE cs = some (setHidList false cs) :=
  showList_eq_of cs (fun c _ => showVisit_eq c) hall

theorem showNodeChildrenE_eq (i : NodeInfo) (cs : List Node)
    (hall : allListB elSomeP cs = true) :
    showNodeChildrenE (.mk i cs) = some (.mk i (setHidList false cs)) := by
  simp [showNodeChildrenE, showList_eq cs hall]

theorem hideList_eq_of (cs : List Node)
    (hv : ∀ c ∈ cs, allB elSomeP c = true → hideChildVisitE c = some (setHidVisit true c))
    (hall : allListB elSomeP cs = true) :
    hideChildrenListE cs = some (setHidList true cs) := by
  induction cs with
  | nil => rfl
  | cons c cs ih =>
      rw [allListB] at hall
      simp only [Bool.and_eq_true] at hall
      have hc := hv c (List.mem_cons_self c cs) hall.1
      have hrest := ih (fun d hd => hv d (List.mem_cons_of_mem c hd)) hall.2
      simp [hideChildrenListE, hc, hrest, setHidList]

theorem hideVisit_eq :
    ∀ n, allB elSomeP n = true → hideChildVisitE n = some (setHidVisit true n) := by
  refine Node.recOnMem ?_
  intro i cs ih h
  rw [allB_mk] at h
  simp only [Bool.and_eq_true] at h
  obtain ⟨h1, h2⟩ := h
  cases hel : i.el with
  | none => rw [elSomeP, hel] at h1; simp at h1
  | some e =>
      cases hexp : i.isExpanded with
      | true =>
          have hlist := hideList_eq_of cs (fun c hc _ => ih c hc (by
            rw [allListB_eq_true_iff] at h2
            exact h2 c hc)) h2
          simp [hideChildVisitE, setHidVisit, hel, hexp, hlist]
      | false => simp [hideChildVisitE, setHidVisit, hel, hexp]

theorem hideList_eq (cs : List Node) (hall : allListB elSomeP cs = true) :
    hideChildrenListE cs = some (setHidList true cs) :=
  hideList_eq_of cs (fun c _ => hideVisit_eq c) hall

theorem hideNodeChildrenE_eq (i : NodeInfo) (cs : List Node)
    (hall : allListB elSomeP cs = true) :
    hideNodeChildrenE (.mk i cs) = some (.mk i (setHidList true cs)) := by
  simp [hideNodeChildrenE, hideList_eq cs hall]

theorem expandList_eq_of (cs : List Node)
    (hv : ∀ c ∈ cs, allB elSomeP c = true → expandE c = some (expandPure c))
    (hall : allListB elSomeP cs = true) :
    expandListE cs = some (expandPureList cs) := by
  induction cs with
  | nil => rfl
  | cons c cs ih =>
      rw [allListB] at hall
      simp only [Bool.and_eq_true] at hall
      have hc := hv c (List.mem_cons_self c cs) hall.1
      have hrest := ih (fun d hd => hv d (List.mem_cons_of_mem c hd)) hall.2
      simp [expandListE, hc, hrest, expandPureList]

theorem expandE_eq :
    ∀ n, allB elSomeP n = true → expandE n = some (expandPure n) := by
  refine Node.recOnMem ?_
  intro i cs ih h
  rw [allB_mk] at h
  simp only [Bool.and_eq_true] at h
  obtain ⟨h1, h2⟩ := h
  cases hel : i.el with
  | none => rw [elSomeP, hel] at h1; simp at h1
  | some e =>
      have hlist := expandList_eq_of cs (fun c hc _ => ih c hc (by
        rw [allListB_eq_true_iff] at h2
        exact h2 c hc)) h2
      simp [expandE, expandPure, hel, hlist]

theorem travList_shape_of (cs : List Node)
    (hv : ∀ c ∈ cs, ∀ cnt, allB elShapeP (travCreate c cnt).1 = true) :
    ∀ cnt, allListB elShapeP (travCreateList cs cnt).1 = true := by
  induction cs with
  | nil => intro cnt; rfl
  | cons c cs ih =>
      intro cnt
      have hc := hv c (List.mem_cons_self c cs) cnt
      have hrest := ih (fun d hd => hv d (List.mem_cons_of_mem c hd)) (travCreate c cnt).2
      simp [travCreateList, allListB, hc, hrest]

theorem travCreate_shape :
    ∀ n, ∀ cnt, allB elShapeP (travCreate n cnt).1 = true := by
  refine Node.recOnMem ?_
  intro i cs ih cnt
  have hlist := travList_shape_of cs ih (visitCreateEl i cs cnt).2
  rw [travCreate, allB_mk]
  simp only [Bool.and_eq_true]
  refine ⟨?_, hlist⟩
  have hlen := travCreateList_length cs (visitCreateEl i cs cnt).2
  have hemp : (travCreateList cs (visitCreateEl i cs cnt).2).1.isEmpty = cs.isEmpty :=
    isEmpty_of_length_eq hlen
  simp only [visitCreateEl] at hemp
  cases hcs : cs.isEmpty with
  | true =>
      simp [elShapeP, visitCreateEl, createNodeElement, Node.children_mk, Node.info_mk,
        hcs, hemp]
  | false =>
      simp [elShapeP, visitCreateEl, createNodeElement, Node.children_mk, Node.info_mk,
        hcs, hemp]

theorem expandPureList_matFull_of (cs : List Node)
    (hv : ∀ c ∈ cs, allB elShapeP c = true → allB matFullP (expandPure c) = true)
    (hall : allListB elShapeP cs = true) :
    allListB matFullP (expandPureList cs) = true := by
  induction cs with
  | nil => rfl
  | cons c cs ih =>
      rw [allListB] at hall
      simp only [Bool.and_eq_true] at hall
      have hc := hv c (List.mem_cons_self c cs) hall.1
      have hrest := ih (fun d hd => hv d (List.mem_cons_of_mem c hd)) hall.2
      simp [expandPureList, allListB, hc, hrest]

theorem expandPure_matFull :
    ∀ n, allB elShapeP n = true → allB matFullP (expandPure n) = true := by
  refine Node.recOnMem ?_
  intro i cs ih h
  rw [allB_mk] at h
  simp only [Bool.and_eq_true] at h
  obtain ⟨h1, h2⟩ := h
  cases hel : i.el with
  | none => rw [elShapeP, hel] at h1; simp at h1
  | some e =>
      rw [elShapeP, hel] at h1
      simp only [Bool.and_eq_true, beq_iff_eq, Bool.not_eq_true'] at h1
      obtain ⟨hcaret, hpend⟩ := h1
      have hlist := expandPureList_matFull_of cs (fun c hc _ => ih c hc (by
        rw [allListB_eq_true_iff] at h2
        exact h2 c hc)) h2
      have hemp : (expandPureList cs).isEmpty = cs.isEmpty :=
        isEmpty_of_length_eq (expandPureList_length cs)
      cases hcs : cs.isEmpty with
      | true =>
          simp [expandPure, hel, allB_mk, hlist, matFullP, hemp, hcs, hpend,
            hcaret, hcs]
      | false =>
          simp [expandPure, hel, allB_mk, hlist, matFullP, hemp, hcs, hpend,
            hcaret, hcs]

theorem Elem.setHidden_false_eq (e : Elem) (h : e.hidden = false) :
    { e with hidden := false } = e := by
  cases e
  simp_all

theorem setHidList_noop_of (cs : List Node)
    (hv : ∀ c ∈ cs, allB unhiddenP c = true → setHidVisit false c = c)
    (hall : allListB unhiddenP cs = true) :
    setHidList false cs = cs := by
  induction cs with
  | nil => rfl
  | cons c cs ih =>
      rw [allListB] at hall
      simp only [Bool.and_eq_true] at hall
      have hc := hv c (List.mem_cons_self c cs) hall.1
      have hrest := ih (fun d hd => hv d (List.mem_cons_of_mem c hd)) hall.2
      simp [setHidList, hc, hrest]

theorem setHidVisit_noop :
    ∀ n, allB unhiddenP n = true → setHidVisit false n = n := by
  refine Node.recOnMem ?_
  intro i cs ih h
  rw [allB_mk] at h
  simp only [Bool.and_eq_true] at h
  obtain ⟨h1, h2⟩ := h
  have hlist := setHidList_noop_of cs (fun c hc _ => ih c hc (by
    rw [allListB_eq_true_iff] at h2
    exact h2 c hc)) h2
  have hmap : i.el.map (fun e => { e with hidden := false }) = i.el := by
    cases hel : i.el with
    | none => rfl
    | some e =>
        rw [unhiddenP, hel] at h1
        simp only [Bool.not_eq_true'] at h1
        rw [Option.map_some', Elem.setHidden_false_eq e h1]
  show Node.mk { i with el := i.el.map (fun e => { e with hidden := false }) }
      (if i.isExpanded then setHidList false cs else cs) = Node.mk i cs
  rw [hmap, hlist, ite_self]

theorem setHidList_noop (cs : List Node) (hall : allListB unhiddenP cs = true) :
    setHidList false cs = cs :=
  setHidList_noop_of cs (fun c _ => setHidVisit_noop c) hall

theorem setHidList_expanded_of (b : Bool) (cs : List Node)
    (hv : ∀ c ∈ cs, allB expandedP c = true →
      setHidVisit b c = mapElAll (fun e => { e with hidden := b }) c)
    (hall : allListB expandedP cs = true) :
    setHidList b cs = mapElAllList (fun e => { e with hidden := b }) cs := by
  induction cs with
  | nil => rfl
  | cons c cs ih =>
      rw [allListB] at hall
      simp only [Bool.and_eq_true] at hall
      have hc := hv c (List.mem_cons_self c cs) hall.1
      have hrest := ih (fun d hd => hv d (List.mem_cons_of_mem c hd)) hall.2
      simp [setHidList, mapElAllList, hc, hrest]

theorem setHidVisit_expanded (b : Bool) :
    ∀ n, allB expandedP n = true →
      setHidVisit b n = mapElAll (fun e => { e with hidden := b }) n := by
  refine Node.recOnMem ?_
  intro i cs ih h
  rw [allB_mk] at h
  simp only [Bool.and_eq_true] at h
  obtain ⟨h1, h2⟩ := h
  rw [expandedP] at h1
  have hlist := setHidList_expanded_of b cs (fun c hc _ => ih c hc (by
    rw [allListB_eq_true_iff] at h2
    exact h2 c hc)) h2
  show Node.mk { i with el := i.el.map (fun e => { e with hidden := b }) }
      (if i.isExpanded then setHidList b cs else cs)
      = mapElAll (fun e => { e with hidden := b }) (.mk i cs)
  rw [h1, mapElAll]
  simp [hlist, h1]

theorem setHidList_expanded (b : Bool) (cs : List Node)
    (hall : allListB expandedP cs = true) :
    setHidList b cs = mapElAllList (fun e => { e with hidden := b }) cs :=
  setHidList_expanded_of b cs (fun c _ => setHidVisit_expanded b c) hall

theorem mapElAllList_pres_of (p : NodeInfo → List Node → Bool) (f : Elem → Elem)
    (_hp : ∀ i cs1 cs2, cs1.length = cs2.length →
      p { i with el := i.el.map f } cs1 = p i cs2)
    (cs : List Node)
    (hv : ∀ c ∈ cs, allB p (mapElAll f c) = allB p c) :
    allListB p (mapElAllList f cs) = allListB p cs := by
  induction cs with
  | nil => rfl
  | cons c cs ih =>
      have hc := hv c (List.mem_cons_self c cs)
      have hrest := ih (fun d hd => hv d (List.mem_cons_of_mem c hd))
      simp [mapElAllList, allListB, hc, hrest]

theorem mapElAll_pres (p : NodeInfo → List Node → Bool) (f : Elem → Elem)
    (hp : ∀ i cs1 cs2, cs1.length = cs2.length →
      p { i with el := i.el.map f } cs1 = p i cs2) :
    ∀ n, allB p (mapElAll f n) = allB p n := by
  refine Node.recOnMem ?_
  intro i cs ih
  have hlist := mapElAllList_pres_of p f hp cs ih
  rw [mapElAll, allB_mk, allB_mk, hlist,
    hp i (mapElAllList f cs) cs (mapElAllList_length f cs)]

theorem mapElAll_expandedP (f : Elem → Elem) (n : Node) :
    allB expandedP (mapElAll f n) = allB expandedP n :=
  mapElAll_pres expandedP f (fun _ _ _ _ => rfl) n

theorem mapElAllList_expandedP (f : Elem → Elem) (cs : List Node) :
    allListB expandedP (mapElAllList f cs) = allListB expandedP cs :=
  mapElAllList_pres_of expandedP f (fun _ _ _ _ => rfl) cs
    (fun c _ => mapElAll_expandedP f c)

theorem mapElAll_elSomeP (f : Elem → Elem) (n : Node) :
    allB elSomeP (mapElAll f n) = allB elSomeP n :=
  mapElAll_pres elSomeP f
    (fun i _ _ _ => by simp [elSomeP]) n

theorem mapElAllList_elSomeP (f : Elem → Elem) (cs : List Node) :
    allListB elSomeP (mapElAllList f cs) = allListB elSomeP cs :=
  mapElAllList_pres_of elSomeP f (fun i _ _ _ => by simp [elSomeP]) cs
    (fun c _ => mapElAll_elSomeP f c)

theorem mapElAllList_comp_of (f g : Elem → Elem) (cs : List Node)
    (hv : ∀ c ∈ cs, mapElAll f (mapElAll g c) = mapElAll (fun e => f (g e)) c) :
    mapElAllList f (mapElAllList g cs) = mapElAllList (fun e => f (g e)) cs := by
  induction cs with
  | nil => rfl
  | cons c cs ih =>
      have hc := hv c (List.mem_cons_self c cs)
      have hrest := ih (fun d hd => hv d (List.mem_cons_of_mem c hd))
      simp [mapElAllList, hc, hrest]

theorem mapElAll_comp (f g : Elem → Elem) :
    ∀ n, mapElAll f (mapElAll g n) = mapElAll (fun e => f (g e)) n := by
  refine Node.recOnMem ?_
  intro i cs ih
  have hlist := mapElAllList_comp_of f g cs ih
  simp [mapElAll, hlist, Option.map_map, Function.comp_def]

theorem mapElAllList_comp (f g : Elem → Elem) (cs : List Node) :
    mapElAllList f (mapElAllList g cs) = mapElAllList (fun e => f (g e)) cs :=
  mapElAllList_comp_of f g cs (fun c _ => mapElAll_comp f g c)

theorem mapElAllList_unhide_noop_of (cs : List Node)
    (hv : ∀ c ∈ cs, allB unhiddenP c = true →
      mapElAll (fun e => { e with hidden := false }) c = c)
    (hall : allListB unhiddenP cs = true) :
    mapElAllList (fun e => { e with hidden := false }) cs = cs := by
  induction cs with
  | nil => rfl
  | cons c cs ih =>
      rw [allListB] at hall
      simp only [Bool.and_eq_true] at hall
      have hc := hv c (List.mem_cons_self c cs) hall.1
      have hrest := ih (fun d hd => hv d (List.mem_cons_of_mem c hd)) hall.2
      simp [mapElAllList, hc, hrest]

theorem mapElAll_unhide_noop :
    ∀ n, allB unhiddenP n = true →
      mapElAll (fun e => { e with hidden := false }) n = n := by
  refine Node.recOnMem ?_
  intro i cs ih h
  rw [allB_mk] at h
  simp only [Bool.and_eq_true] at h
  obtain ⟨h1, h2⟩ := h
  have hlist := mapElAllList_unhide_noop_of cs (fun c hc _ => ih c hc (by
    rw [allListB_eq_true_iff] at h2
    exact h2 c hc)) h2
  have hmap : i.el.map (fun e => { e with hidden := false }) = i.el := by
    cases hel : i.el with
    | none => rfl
    | some e =>
        rw [unhiddenP, hel] at h1
        simp only [Bool.not_eq_true'] at h1
        rw [Option.map_some', Elem.setHidden_false_eq e h1]
  show Node.mk { i with el := i.el.map (fun e => { e with hidden := false }) }
      (mapElAllList (fun e => { e with hidden := false }) cs) = Node.mk i cs
  rw [hmap, hlist]

theorem mapElAllList_unhide_noop (cs : List Node)
    (hall : allListB unhiddenP cs = true) :
    mapElAllList (fun e => { e with hidden := false }) cs = cs :=
  mapElAllList_unhide_noop_of cs (fun c _ => mapElAll_unhide_noop c) hall

theorem elShapeP_imp_elSomeP (i : NodeInfo) (cs : List Node)
    (h : elShapeP i cs = true) : elSomeP i cs = true := by
  rw [elShapeP] at h
  rw [elSomeP]
  cases hel : i.el with
  | none => rw [hel] at h; simp at h
  | some e => rfl

theorem matFullP_elim (i : NodeInfo) (cs : List Node) (h : matFullP i cs = true) :
    ∃ e, i.el = some e ∧ i.isExpanded = true ∧ i.isPending = false ∧
      e.hidden = false ∧ e.hasCaret = !cs.isEmpty ∧ (cs.isEmpty = false → e.caretDown = true) := by
  rw [matFullP] at h
  cases hel : i.el with
  | none => rw [hel] at h; simp at h
  | some e =>
      rw [hel] at h
      simp only [Bool.and_eq_true, beq_iff_eq, Bool.not_eq_true', Bool.or_eq_true] at h
      refine ⟨e, rfl, h.1.1.1.1, h.1.1.1.2, h.1.1.2, h.1.2, ?_⟩
      intro hcs
      rcases h.2 with h2 | h2
      · rw [hcs] at h2; cases h2
      · exact h2

theorem matFullP_imp_elSomeP (i : NodeInfo) (cs : List Node)
    (h : matFullP i cs = true) : elSomeP i cs = true := by
  obtain ⟨e, hel, _⟩ := matFullP_elim i cs h
  rw [elSomeP, hel]
  rfl

theorem matFullP_imp_unhiddenP (i : NodeInfo) (cs : List Node)
    (h : matFullP i cs = true) : unhiddenP i cs = true := by
  obtain ⟨e, hel, _, _, hhid, _⟩ := matFullP_elim i cs h
  rw [unhiddenP, hel]
  simp [hhid]

theorem matFullP_imp_expandedP (i : NodeInfo) (cs : List Node)
    (h : matFullP i cs = true) : expandedP i cs = true := by
  obtain ⟨e, _, hexp, _⟩ := matFullP_elim i cs h
  rw [expandedP, hexp]

theorem allB_mk_elim (p : NodeInfo → List Node → Bool) (i : NodeInfo) (cs : List Node)
    (h : allB p (.mk i cs) = true) : p i cs = true ∧ allListB p cs = true := by
  rw [allB_mk] at h
  simp only [Bool.and_eq_true] at h
  exact h

theorem setCaretIconDownE_children (x y : Node) (h : setCaretIconDownE x = some y) :
    y.children = x.children := by
  cases x with
  | mk i cs =>
      rw [setCaretIconDownE] at h
      by_cases hcs : cs.isEmpty = true
      · rw [if_pos hcs] at h
        cases h
        rfl
      · rw [if_neg hcs] at h
        cases hel : i.el with
        | none => rw [hel] at h; cases h
        | some e =>
            rw [hel] at h
            cases h
            rfl

theorem setCaretIconRightE_eq (i : NodeInfo) (cs : List Node) (e : Elem)
    (hne : cs.isEmpty = false) (hel : i.el = some e) (hc : e.hasCaret = true) :
    setCaretIconRightE (.mk i cs)
      = some (.mk { i with el := some { e with caretDown := false } } cs) := by
  rw [setCaretIconRightE, if_neg (by simp [hne]), hel]
  simp [hc]

theorem setCaretIconDownE_eq (i : NodeInfo) (cs : List Node) (e : Elem)
    (hne : cs.isEmpty = false) (hel : i.el = some e) (hc : e.hasCaret = true) :
    setCaretIconDownE (.mk i cs)
      = some (.mk { i with el := some { e with caretDown := true } } cs) := by
  rw [setCaretIconDownE, if_neg (by simp [hne]), hel]
  simp [hc]

theorem Elem.setCaretDown_eq (e : Elem) (h : e.caretDown = true) :
    { e with caretDown := true } = e := by
  cases e
  simp_all

theorem mapElAll_info (f : Elem → Elem) (c : Node) :
    (mapElAll f c).info = { c.info with el := c.info.el.map f } := by
  cases c
  rfl

theorem allB_elim (p : NodeInfo → List Node → Bool) (x : Node) (h : allB p x = true) :
    p x.info x.children = true ∧ allListB p x.children = true := by
  cases x with
  | mk i cs => exact allB_mk_elim p i cs h

theorem allListB_cons_elim (p : NodeInfo → List Node → Bool) (c : Node) (cs : List Node)
    (h : allListB p (c :: cs) = true) : allB p c = true ∧ allListB p cs = true := by
  rw [allListB] at h
  simp only [Bool.and_eq_true] at h
  exact h

theorem showNodeChildrenE_eq_node (x : Node) (h : allListB elSomeP x.children = true) :
    showNodeChildrenE x = some (.mk x.info (setHidList false x.children)) := by
  cases x with
  | mk i cs => exact showNodeChildrenE_eq i cs h

theorem NodeInfo.expand_el_eta (i : NodeInfo) (e : Elem)
    (h1 : i.isExpanded = true) (h2 : i.el = some e) :
    { i with isExpanded := true, el := some e } = i := by
  cases i
  simp_all

theorem setHidVisit_info_isPending (b : Bool) (c : Node) :
    (setHidVisit b c).info.isPending = c.info.isPending := by
  cases c
  rfl


theorem unhideComp_eq :
    (fun (e : Elem) => ({ ({ e with hidden := true } : Elem) with hidden := false } : Elem))
      = fun (e : Elem) => ({ e with hidden := false } : Elem) := by
  funext e
  rfl

/-- C5: interactively expanding a collapsed node whose first child is
pending (a never-before-materialized subtree) materializes it once;
after interactively collapsing the result, the next interactive expand
returns exactly the node state and element-creation counter produced by
the first expand — the same set of materialized descendant nodes and
elements (`c1` unchanged means no element is created a second time) and
the same visual content. -/
theorem c5_expand_collapse_expand_idempotent
    (n : Node) (c0 c1 c2 : Nat) (n1 n2 : Node)
    (hexp : n.info.isExpanded = false)
    (hpend : firstChildPendingB n = true)
    (h1 : toggleNodeE n c0 = some (n1, c1))
    (hne : n1.children.isEmpty = false)
    (h2 : toggleNodeE n1 c1 = some (n2, c2)) :
    toggleNodeE n2 c2 = some (n1, c1) := by
  rw [toggleNodeE] at h1
  rw [if_neg (by simp [hexp])] at h1
  dsimp only [] at h1
  rw [Option.bind_eq_bind'] at h1
  rw [Option.bind_eq_some'] at h1
  obtain ⟨m, hset, h1⟩ := h1
  have hmch := setCaretIconDownE_children _ _ hset
  rw [Node.children_mk] at hmch
  rw [firstChildPendingB] at hpend
  cases hh : n.children.head? with
  | none => rw [hh] at hpend; simp at hpend
  | some cf =>
  rw [hh] at hpend
  dsimp only [] at hpend
  rw [hmch, hh] at h1
  dsimp only [] at h1
  rw [if_pos hpend] at h1
  -- both $ref and plain branches produce a base n3 that is materialized
  have hkey : ∃ n3, ((expandE (travCreate n3 c0).1).bind fun n5 =>
      (showNodeChildrenE n5).bind fun n6 => some (n6, (travCreate n3 c0).2))
        = some (n1, c1) := by
    by_cases href : cf.info.key = some "$ref"
    · rw [if_pos href] at h1
      rw [Option.bind_eq_bind', Option.bind_eq_some'] at h1
      obtain ⟨n3, _, h1⟩ := h1
      exact ⟨n3, h1⟩
    · rw [if_neg href] at h1
      rw [Option.bind_eq_bind', Option.some_bind] at h1
      exact ⟨m, h1⟩
  clear h1
  obtain ⟨n3, h1⟩ := hkey
  have hshape := travCreate_shape n3 c0
  have hsome := allB_imp elShapeP elSomeP elShapeP_imp_elSomeP _ hshape
  rw [expandE_eq _ hsome] at h1
  rw [Option.some_bind] at h1
  have hmatE := expandPure_matFull _ hshape
  have hselist : allListB elSomeP (expandPure (travCreate n3 c0).1).children = true :=
    allListB_imp matFullP elSomeP matFullP_imp_elSomeP _ (allB_elim _ _ hmatE).2
  have hunlist : allListB unhiddenP (expandPure (travCreate n3 c0).1).children = true :=
    allListB_imp matFullP unhiddenP matFullP_imp_unhiddenP _ (allB_elim _ _ hmatE).2
  rw [showNodeChildrenE_eq_node _ hselist, setHidList_noop _ hunlist,
    Node.mk_info_children] at h1
  rw [Option.some_bind] at h1
  simp only [Option.some.injEq, Prod.mk.injEq] at h1
  obtain ⟨hn1, hc1⟩ := h1
  have hmatn1 : allB matFullP n1 = true := hn1 ▸ hmatE
  -- facts about n1
  obtain ⟨hmi, hml⟩ := allB_elim _ _ hmatn1
  obtain ⟨e1, hel1, hexp1, hpend1, hhid1, hcar1, hcd1⟩ := matFullP_elim _ _ hmi
  rw [hne] at hcar1
  simp only [Bool.not_false] at hcar1
  have hcd1t : e1.caretDown = true := hcd1 hne
  have hsel1 := allListB_imp matFullP elSomeP matFullP_imp_elSomeP _ hml
  have hexl1 := allListB_imp matFullP expandedP matFullP_imp_expandedP _ hml
  have hunl1 := allListB_imp matFullP unhiddenP matFullP_imp_unhiddenP _ hml
  -- Step 2: the second toggle collapses.
  rw [toggleNodeE] at h2
  rw [if_pos hexp1] at h2
  dsimp only [] at h2
  rw [Option.bind_eq_bind'] at h2
  rw [setCaretIconRightE_eq { n1.info with isExpanded := false } n1.children e1
    hne hel1 hcar1] at h2
  rw [Option.some_bind, Option.bind_eq_bind'] at h2
  rw [hideNodeChildrenE_eq _ n1.children hsel1] at h2
  rw [Option.some_bind] at h2
  simp only [Option.some.injEq, Prod.mk.injEq] at h2
  obtain ⟨hn2, hc2⟩ := h2
  -- Step 3: the third toggle reveals the unchanged materialized state.
  have hn2exp : n2.info.isExpanded = false := by rw [← hn2]; rfl
  have hn2el : n2.info.el = some { e1 with caretDown := false } := by rw [← hn2]; rfl
  have hn2ch : n2.children = setHidList true n1.children := by rw [← hn2]; rfl
  have hn2info : n2.info
      = { n1.info with isExpanded := false, el := some { e1 with caretDown := false } } := by
    rw [← hn2]; rfl
  have hne2 : n2.children.isEmpty = false := by
    rw [hn2ch, isEmpty_of_length_eq (setHidList_length true n1.children), hne]
  rw [toggleNodeE]
  rw [if_neg (by simp [hn2exp])]
  dsimp only []
  rw [Option.bind_eq_bind']
  rw [setCaretIconDownE_eq { n2.info with isExpanded := true } n2.children
    { e1 with caretDown := false } hne2 hn2el hcar1]
  rw [Option.some_bind]
  cases hcs1 : n1.children with
  | nil => rw [hcs1] at hne; simp at hne
  | cons cH cT =>
  have hpendH : cH.info.isPending = false := by
    rw [hcs1] at hml
    obtain ⟨hH, _⟩ := allListB_cons_elim _ _ _ hml
    obtain ⟨hHi, _⟩ := allB_elim _ _ hH
    obtain ⟨eH, _, _, hp, _⟩ := matFullP_elim _ _ hHi
    exact hp
  rw [hn2ch, hcs1]
  rw [show setHidList true (cH :: cT) = setHidVisit true cH :: setHidList true cT from rfl]
  dsimp only [Node.children_mk, List.head?_cons]
  rw [if_neg (by rw [setHidVisit_info_isPending, hpendH]; simp)]
  have hSsome : allListB elSomeP (setHidVisit true cH :: setHidList true cT) = true := by
    rw [show setHidVisit true cH :: setHidList true cT
      = setHidList true (cH :: cT) from rfl]
    rw [setHidList_expanded true _ (hcs1 ▸ hexl1), mapElAllList_elSomeP]
    exact hcs1 ▸ hsel1
  rw [Option.bind_eq_bind']
  rw [showNodeChildrenE_eq _ _ hSsome]
  rw [Option.some_bind]
  show some (Node.mk { n2.info with isExpanded := true, el := some { e1 with caretDown := true } }
      (setHidList false (setHidVisit true cH :: setHidList true cT)), c2) = some (n1, c1)
  rw [hn2info]
  show some (Node.mk { n1.info with isExpanded := true, el := some { e1 with caretDown := true } }
      (setHidList false (setHidVisit true cH :: setHidList true cT)), c2) = some (n1, c1)
  rw [Elem.setCaretDown_eq e1 hcd1t]
  rw [NodeInfo.expand_el_eta n1.info e1 hexp1 hel1]
  have hrestore : setHidList false (setHidVisit true cH :: setHidList true cT)
      = cH :: cT := by
    rw [show setHidVisit true cH :: setHidList true cT
      = setHidList true (cH :: cT) from rfl]
    have hexpS : allListB expandedP (setHidList true (cH :: cT)) = true := by
      rw [setHidList_expanded true _ (hcs1 ▸ hexl1), mapElAllList_expandedP]
      exact hcs1 ▸ hexl1
    rw [setHidList_expanded false _ hexpS]
    rw [setHidList_expanded true _ (hcs1 ▸ hexl1)]
    rw [mapElAllList_comp]
    exact Eq.trans
      (congrArg (fun f => mapElAllList f (cH :: cT)) unhideComp_eq)
      (mapElAllList_unhide_noop _ (hcs1 ▸ hunl1))
  rw [hrestore, ← hcs1, Node.mk_info_children, ← hc2]

/-- Child access used by the concrete scenarios: `node.children[i]`
(falling back to the node itself when out of range; the scenarios stay
in range). -/
def nthChild (n : Node) (i : Nat) : Node :=
  (n.children.get? i).getD n

/-- A rendered, collapsed container whose sole child is pending: the
caret element of a depth-2 object node as the initial render leaves
it. -/
def c5e0 : Elem :=
  { id := 5, hidden := true, hasCaret := true, caretDown := false, keyText := "b",
    sizeText := some "{1}", valueText := none, valueType := none, indentPx := 36 }

/-- The pending, unmaterialized child. -/
def c5leaf : Node :=
  .mk { key := some "c", value := .jnum 1, type_ := some "number", hasParent := true,
        depth := 3, isExpanded := false, isPending := true, parsedData := .jnull,
        el := none, dispose := false } []

/-- The collapsed container node the user clicks. -/
def c5n0 : Node :=
  .mk { key := some "b", value := .jobj [("c", .jnum 1)], type_ := some "object",
        hasParent := true, depth := 2, isExpanded := false, isPending := false,
        parsedData := .jnull, el := some c5e0, dispose := true } [c5leaf]

theorem c5h1some : (toggleNodeE c5n0 6).isSome = true := by decide

/-- State after the first (materializing) expand. -/
def c5p1 : Node × Nat := (toggleNodeE c5n0 6).get c5h1some

theorem c5h2some : (toggleNodeE c5p1.1 c5p1.2).isSome = true := by decide

/-- State after the interactive collapse of `c5p1`. -/
def c5p2 : Node × Nat := (toggleNodeE c5p1.1 c5p1.2).get c5h2some

theorem c5_witness : toggleNodeE c5p2.1 c5p2.2 = some (c5p1.1, c5p1.2) :=
  c5_expand_collapse_expand_idempotent c5n0 6 c5p1.2 c5p2.2 c5p1.1 c5p2.1
    (by decide)
    (by decide)
    (Option.some_get c5h1some).symm
    (by decide)
    (Option.some_get c5h2some).symm

/-! ## Visibility invariants for collapse/re-expand (C6) -/

/-- The node's element, if any, carries the hidden class. -/
def elHiddenP (i : NodeInfo) (_ : List Node) : Bool :=
  match i.el with
  | some e => e.hidden
  | none => true

mutual

/-- Visibility consistency below a node: every non-expanded node's
strict descendants are hidden — the state every reachable rendered tree
is in, and what makes "collapse hides the entire subtree" true even
though `hideNodeChildren` only recurses into expanded children. -/
def goodVisListB : List Node → Bool
  | [] => true
  | c :: cs => goodVisB c && goodVisListB cs

/-- Node-level side of `goodVisListB`. -/
def goodVisB : Node → Bool
  | .mk ci ccs => (ci.isExpanded || allListB elHiddenP ccs) && goodVisListB ccs

end

theorem goodVisListB_cons (c : Node) (cs : List Node) :
    goodVisListB (c :: cs) = (goodVisB c && goodVisListB cs) := rfl

mutual

/-- The reveal shape after re-expanding: every direct child visible,
expanded children recursively revealed, collapsed children's strict
descendants hidden. -/
def wellRevealedListB : List Node → Bool
  | [] => true
  | c :: cs => wellRevealedB c && wellRevealedListB cs

/-- Node-level side of `wellRevealedListB`. -/
def wellRevealedB : Node → Bool
  | .mk ci ccs =>
      (match ci.el with
        | some e => !e.hidden
        | none => false) &&
      (if ci.isExpanded then wellRevealedListB ccs else allListB elHiddenP ccs)

end

mutual

/-- Erase every element in the subtree: what remains is exactly the
model state (flags, keys, values, depths, structure). -/
def stripEls : Node → Node
  | .mk i cs => .mk { i with el := none } (stripElsList cs)

/-- List side of `stripEls`. -/
def stripElsList : List Node → List Node
  | [] => []
  | c :: cs => stripEls c :: stripElsList cs

end

theorem setHidList_elSomeP (b : Bool) :
    ∀ cs, allListB elSomeP (setHidList b cs) = allListB elSomeP cs := by
  have hnode : ∀ n, allB elSomeP (setHidVisit b n) = allB elSomeP n := by
    refine Node.recOnMem ?_
    intro i cs ih
    have hlist : allListB elSomeP (setHidList b cs) = allListB elSomeP cs := by
      induction cs with
      | nil => rfl
      | cons c cs ihl =>
          rw [setHidList, allListB, allListB, ih c (List.mem_cons_self c cs),
            ihl (fun d hd => ih d (List.mem_cons_of_mem c hd))]
    show allB elSomeP (.mk { i with el := i.el.map (fun e => { e with hidden := b }) }
      (if i.isExpanded then setHidList b cs else cs)) = allB elSomeP (.mk i cs)
    rw [allB_mk, allB_mk]
    cases hexp : i.isExpanded with
    | true => rw [if_pos rfl, hlist]; simp [elSomeP]
    | false => rw [if_neg (by simp)]; simp [elSomeP]
  intro cs
  induction cs with
  | nil => rfl
  | cons c cs ih =>
      rw [setHidList, allListB, allListB, hnode c, ih]

theorem stripElsList_setHid (b : Bool) :
    ∀ cs, stripElsList (setHidList b cs) = stripElsList cs := by
  have hnode : ∀ n, stripEls (setHidVisit b n) = stripEls n := by
    refine Node.recOnMem ?_
    intro i cs ih
    have hlist : stripElsList (setHidList b cs) = stripElsList cs := by
      induction cs with
      | nil => rfl
      | cons c cs ihl =>
          rw [setHidList, stripElsList, stripElsList, ih c (List.mem_cons_self c cs),
            ihl (fun d hd => ih d (List.mem_cons_of_mem c hd))]
    show stripEls (.mk { i with el := i.el.map (fun e => { e with hidden := b }) }
      (if i.isExpanded then setHidList b cs else cs)) = stripEls (.mk i cs)
    rw [stripEls, stripEls]
    cases hexp : i.isExpanded with
    | true => rw [if_pos rfl, hlist]
    | false => rw [if_neg (by simp)]
  intro cs
  induction cs with
  | nil => rfl
  | cons c cs ih =>
      rw [setHidList, stripElsList, stripElsList, hnode c, ih]

theorem setHidVisit_unfold (b : Bool) (i : NodeInfo) (cs : List Node) :
    setHidVisit b (.mk i cs)
      = .mk { i with el := i.el.map (fun e => { e with hidden := b }) }
          (if i.isExpanded then setHidList b cs else cs) := rfl

theorem wellRevealedB_mk (i : NodeInfo) (cs : List Node) :
    wellRevealedB (.mk i cs)
      = ((match i.el with
          | some e => !e.hidden
          | none => false) &&
         (if i.isExpanded then wellRevealedListB cs else allListB elHiddenP cs)) := rfl

theorem setHidList_true_allHidden_of (cs : List Node)
    (hv : ∀ c ∈ cs, goodVisB c = true → allB elHiddenP (setHidVisit true c) = true)
    (hg : goodVisListB cs = true) :
    allListB elHiddenP (setHidList true cs) = true := by
  induction cs with
  | nil => rfl
  | cons c cs ih =>
      rw [goodVisListB_cons] at hg
      simp only [Bool.and_eq_true] at hg
      rw [setHidList, allListB, hv c (List.mem_cons_self c cs) hg.1,
        ih (fun d hd => hv d (List.mem_cons_of_mem c hd)) hg.2]
      rfl

theorem setHidVisit_true_allHidden :
    ∀ n, goodVisB n = true → allB elHiddenP (setHidVisit true n) = true := by
  refine Node.recOnMem ?_
  intro i cs ih h
  rw [goodVisB] at h
  simp only [Bool.and_eq_true, Bool.or_eq_true] at h
  obtain ⟨h1, h2⟩ := h
  rw [setHidVisit_unfold, allB_mk]
  simp only [Bool.and_eq_true]
  constructor
  · rw [elHiddenP]
    cases hel : i.el with
    | none => rfl
    | some e => rfl
  · cases hexp : i.isExpanded with
    | true =>
        rw [if_pos rfl]
        exact setHidList_true_allHidden_of cs ih h2
    | false =>
        rw [if_neg (by simp)]
        rcases h1 with h1 | h1
        · rw [hexp] at h1; cases h1
        · exact h1

theorem setHidList_true_allHidden (cs : List Node) (hg : goodVisListB cs = true) :
    allListB elHiddenP (setHidList true cs) = true :=
  setHidList_true_allHidden_of cs (fun c _ => setHidVisit_true_allHidden c) hg

theorem setHidList_reveal_of (cs : List Node)
    (hv : ∀ c ∈ cs, goodVisB c = true → allB elSomeP c = true →
      wellRevealedB (setHidVisit false (setHidVisit true c)) = true)
    (hg : goodVisListB cs = true) (hs : allListB elSomeP cs = true) :
    wellRevealedListB (setHidList false (setHidList true cs)) = true := by
  induction cs with
  | nil => rfl
  | cons c cs ih =>
      rw [goodVisListB_cons] at hg
      simp only [Bool.and_eq_true] at hg
      rw [allListB] at hs
      simp only [Bool.and_eq_true] at hs
      rw [show setHidList false (setHidList true (c :: cs))
        = setHidVisit false (setHidVisit true c)
          :: setHidList false (setHidList true cs) from rfl]
      rw [wellRevealedListB, hv c (List.mem_cons_self c cs) hg.1 hs.1,
        ih (fun d hd => hv d (List.mem_cons_of_mem c hd)) hg.2 hs.2]
      rfl

theorem setHidVisit_reveal :
    ∀ n, goodVisB n = true → allB elSomeP n = true →
      wellRevealedB (setHidVisit false (setHidVisit true n)) = true := by
  refine Node.recOnMem ?_
  intro i cs ih hg hs
  rw [goodVisB] at hg
  simp only [Bool.and_eq_true, Bool.or_eq_true] at hg
  obtain ⟨hg1, hg2⟩ := hg
  obtain ⟨hs1, hs2⟩ := allB_mk_elim _ _ _ hs
  rw [elSomeP] at hs1
  cases hel : i.el with
  | none => rw [hel] at hs1; simp at hs1
  | some e =>
  rw [setHidVisit_unfold]
  cases hexp : i.isExpanded with
  | true =>
      rw [if_pos rfl, setHidVisit_unfold]
      rw [wellRevealedB_mk]
      simp only [Bool.and_eq_true]
      constructor
      · rw [hel]
        rfl
      · simp only [if_true]
        exact setHidList_reveal_of cs ih hg2 hs2
  | false =>
      rw [if_neg (by simp), setHidVisit_unfold]
      rw [wellRevealedB_mk]
      simp only [Bool.and_eq_true]
      constructor
      · rw [hel]
        rfl
      · simp only [Bool.false_eq_true, if_false]
        rcases hg1 with hg1 | hg1
        · rw [hexp] at hg1; cases hg1
        · exact hg1

theorem setHidList_reveal (cs : List Node) (hg : goodVisListB cs = true)
    (hs : allListB elSomeP cs = true) :
    wellRevealedListB (setHidList false (setHidList true cs)) = true :=
  setHidList_reveal_of cs (fun c _ => setHidVisit_reveal c) hg hs

/-- What `setCaretIconDown`/`setCaretIconRight` do to an existing
element: flip the caret when the `.fas` icon is present (caret
templates only), otherwise leave it alone. -/
def caretSet (b : Bool) (e : Elem) : Elem :=
  if e.hasCaret then { e with caretDown := b } else e

theorem caretSet_caretSet (b1 b2 : Bool) (e : Elem) :
    caretSet b2 (caretSet b1 e) = caretSet b2 e := by
  cases hc : e.hasCaret with
  | true => simp [caretSet, hc]
  | false => simp [caretSet, hc]

theorem setCaretIconRightE_eq2 (i : NodeInfo) (cs : List Node) (e : Elem)
    (hne : cs.isEmpty = false) (hel : i.el = some e) :
    setCaretIconRightE (.mk i cs)
      = some (.mk { i with el := some (caretSet false e) } cs) := by
  rw [setCaretIconRightE, if_neg (by simp [hne]), hel, caretSet]

theorem setCaretIconDownE_eq2 (i : NodeInfo) (cs : List Node) (e : Elem)
    (hne : cs.isEmpty = false) (hel : i.el = some e) :
    setCaretIconDownE (.mk i cs)
      = some (.mk { i with el := some (caretSet true e) } cs) := by
  rw [setCaretIconDownE, if_neg (by simp [hne]), hel, caretSet]

/-- The state an interactive collapse leaves behind: root unexpanded,
root caret (if any) turned right, every child's subtree hidden along
the expanded spine. -/
def togglePureCollapse (n : Node) : Node :=
  .mk { n.info with isExpanded := false, el := n.info.el.map (caretSet false) }
    (setHidList true n.children)

/-- The state re-expanding that collapsed node leaves behind: root
expanded again, root caret down, children revealed along the
still-expanded spine. -/
def togglePureReexpand (n : Node) : Node :=
  .mk { n.info with isExpanded := true, el := n.info.el.map (caretSet true) }
    (setHidList false (setHidList true n.children))

/-- C6: interactively collapsing an expanded, fully materialized,
visibility-consistent node hides every descendant's element while
leaving every descendant's `isExpanded` flag (and everything but
elements' hidden/caret state) unchanged; re-expanding it reveals
exactly the direct children and, recursively, the children of
descendants whose `isExpanded` flag is still true — strict descendants
of a previously collapsed child stay hidden — again leaving all flags
unchanged. -/
theorem c6_collapse_hides_all_reexpand_reveals_selectively
    (n : Node) (cnt : Nat)
    (hexp : n.info.isExpanded = true)
    (hne : n.children.isEmpty = false)
    (helr : n.info.el.isSome = true)
    (hsel : allListB elSomeP n.children = true)
    (hgv : goodVisListB n.children = true)
    (hpend : firstChildPendingB n = false) :
    toggleNodeE n cnt = some (togglePureCollapse n, cnt) ∧
    allListB elHiddenP (togglePureCollapse n).children = true ∧
    stripElsList (togglePureCollapse n).children = stripElsList n.children ∧
    toggleNodeE (togglePureCollapse n) cnt = some (togglePureReexpand n, cnt) ∧
    wellRevealedListB (togglePureReexpand n).children = true ∧
    stripElsList (togglePureReexpand n).children = stripElsList n.children := by
  cases hel : n.info.el with
  | none => rw [hel] at helr; simp at helr
  | some e =>
  have hA : toggleNodeE n cnt = some (togglePureCollapse n, cnt) := by
    rw [toggleNodeE, if_pos hexp]
    dsimp only []
    rw [Option.bind_eq_bind']
    rw [setCaretIconRightE_eq2 { n.info with isExpanded := false } n.children e hne hel]
    rw [Option.some_bind, Option.bind_eq_bind']
    rw [hideNodeChildrenE_eq _ n.children hsel]
    rw [Option.some_bind, togglePureCollapse, hel]
    rfl
  have hPexp : (togglePureCollapse n).info.isExpanded = false := by
    rw [togglePureCollapse]
    rfl
  have hPel : (togglePureCollapse n).info.el = some (caretSet false e) := by
    rw [togglePureCollapse, hel]
    rfl
  have hPch : (togglePureCollapse n).children = setHidList true n.children := by
    rw [togglePureCollapse]
    rfl
  have hPne : (togglePureCollapse n).children.isEmpty = false := by
    rw [hPch, isEmpty_of_length_eq (setHidList_length true n.children), hne]
  have hD : toggleNodeE (togglePureCollapse n) cnt
      = some (togglePureReexpand n, cnt) := by
    rw [toggleNodeE, if_neg (by simp [hPexp])]
    try dsimp only []
    rw [Option.bind_eq_bind']
    rw [setCaretIconDownE_eq2 { (togglePureCollapse n).info with isExpanded := true }
      (togglePureCollapse n).children (caretSet false e) hPne hPel]
    rw [Option.some_bind]
    cases hcs : n.children with
    | nil => rw [hcs] at hne; simp at hne
    | cons cH cT =>
    rw [firstChildPendingB, hcs] at hpend
    simp only [List.head?_cons] at hpend
    rw [hPch, hcs]
    rw [show setHidList true (cH :: cT) = setHidVisit true cH :: setHidList true cT from rfl]
    try dsimp only [Node.children_mk, List.head?_cons]
    rw [if_neg (by rw [setHidVisit_info_isPending, hpend]; simp)]
    have hS : allListB elSomeP (setHidVisit true cH :: setHidList true cT) = true := by
      rw [show setHidVisit true cH :: setHidList true cT
        = setHidList true (cH :: cT) from rfl]
      rw [setHidList_elSomeP]
      exact hcs ▸ hsel
    rw [Option.bind_eq_bind', showNodeChildrenE_eq _ _ hS, Option.some_bind]
    rw [togglePureReexpand, hel, hcs]
    rw [show setHidVisit true cH :: setHidList true cT
      = setHidList true (cH :: cT) from rfl]
    rw [show (Option.map (caretSet true) (some e)) = some (caretSet true e) from rfl]
    rw [← caretSet_caretSet false true e]
    rfl
  refine ⟨hA, ?_, ?_, hD, ?_, ?_⟩
  · rw [hPch]
    exact setHidList_true_allHidden n.children hgv
  · rw [hPch]
    exact stripElsList_setHid true n.children
  · rw [togglePureReexpand, Node.children_mk]
    exact setHidList_reveal n.children hgv hsel
  · rw [togglePureReexpand, Node.children_mk, stripElsList_setHid false,
      stripElsList_setHid true]

/-- Hidden grandchild element of the C6 scenario. -/
def c6elD : Elem :=
  { id := 3, hidden := true, hasCaret := false, caretDown := false, keyText := "d",
    sizeText := none, valueText := some "1", valueType := some "number", indentPx := 54 }

/-- The previously collapsed middle child's element (visible, caret
right). -/
def c6elB : Elem :=
  { id := 2, hidden := false, hasCaret := true, caretDown := false, keyText := "b",
    sizeText := some "{1}", valueText := none, valueType := none, indentPx := 36 }

/-- Second (leaf) child's element, visible. -/
def c6elC : Elem :=
  { id := 4, hidden := false, hasCaret := false, caretDown := false, keyText := "c",
    sizeText := none, valueText := some "2", valueType := some "number", indentPx := 36 }

/-- The expanded root's element (visible, caret down). -/
def c6elA : Elem :=
  { id := 1, hidden := false, hasCaret := true, caretDown := true, keyText := "a",
    sizeText := some "{2}", valueText := none, valueType := none, indentPx := 18 }

/-- Hidden grandchild under the collapsed child `b`. -/
def c6D : Node :=
  .mk { key := some "d", value := .jnum 1, type_ := some "number", hasParent := true,
        depth := 3, isExpanded := false, isPending := false, parsedData := .jnull,
        el := some c6elD, dispose := false } []

/-- Previously collapsed child `b` (visible itself, grandchild hidden). -/
def c6B : Node :=
  .mk { key := some "b", value := .jobj [("d", .jnum 1)], type_ := some "object",
        hasParent := true, depth := 2, isExpanded := false, isPending := false,
        parsedData := .jnull, el := some c6elB, dispose := true } [c6D]

/-- Visible leaf child `c`. -/
def c6C : Node :=
  .mk { key := some "c", value := .jnum 2, type_ := some "number", hasParent := true,
        depth := 2, isExpanded := false, isPending := false, parsedData := .jnull,
        el := some c6elC, dispose := false } []

/-- The expanded, fully materialized node the user collapses. -/
def c6n : Node :=
  .mk { key := some "a", value := .jobj [("b", .jobj [("d", .jnum 1)]), ("c", .jnum 2)],
        type_ := some "object", hasParent := true, depth := 1, isExpanded := true,
        isPending := false, parsedData := .jnull, el := some c6elA, dispose := true }
    [c6B, c6C]

theorem c6_witness :
    toggleNodeE c6n 10 = some (togglePureCollapse c6n, 10) ∧
    allListB elHiddenP (togglePureCollapse c6n).children = true ∧
    stripElsList (togglePureCollapse c6n).children = stripElsList c6n.children ∧
    toggleNodeE (togglePureCollapse c6n) 10 = some (togglePureReexpand c6n, 10) ∧
    wellRevealedListB (togglePureReexpand c6n).children = true ∧
    stripElsList (togglePureReexpand c6n).children = stripElsList c6n.children :=
  c6_collapse_hides_all_reexpand_reveals_selectively c6n 10
    (by decide) (by decide) (by decide) (by decide) (by decide) (by decide)

/-! ## Pending flags of the initial build (C1) -/

mutual

/-- Custom induction for JSON values: to prove `P` everywhere it
suffices to know it for all array elements and object entry values. -/
def JVal.recOnMem {P : JVal → Prop}
    (hnull : P .jnull) (hbool : ∀ b, P (.jbool b)) (hnum : ∀ m, P (.jnum m))
    (hstr : ∀ s, P (.jstr s))
    (harr : ∀ xs, (∀ x ∈ xs, P x) → P (.jarr xs))
    (hobj : ∀ fs, (∀ p ∈ fs, P (Prod.snd p)) → P (.jobj fs)) : ∀ v, P v
  | .jnull => hnull
  | .jbool b => hbool b
  | .jnum m => hnum m
  | .jstr s => hstr s
  | .jarr xs => harr xs (JVal.recOnMemArr hnull hbool hnum hstr harr hobj xs)
  | .jobj fs => hobj fs (JVal.recOnMemObj hnull hbool hnum hstr harr hobj fs)

/-- Array side of `JVal.recOnMem`. -/
def JVal.recOnMemArr {P : JVal → Prop}
    (hnull : P .jnull) (hbool : ∀ b, P (.jbool b)) (hnum : ∀ m, P (.jnum m))
    (hstr : ∀ s, P (.jstr s))
    (harr : ∀ xs, (∀ x ∈ xs, P x) → P (.jarr xs))
    (hobj : ∀ fs, (∀ p ∈ fs, P (Prod.snd p)) → P (.jobj fs)) :
    ∀ (xs : List JVal), ∀ x ∈ xs, P x
  | [], x, hx => absurd hx (List.not_mem_nil x)
  | y :: ys, x, hx =>
      Or.elim (List.mem_cons.mp hx)
        (fun h1 => h1 ▸ JVal.recOnMem hnull hbool hnum hstr harr hobj y)
        (fun h2 => JVal.recOnMemArr hnull hbool hnum hstr harr hobj ys x h2)

/-- Object side of `JVal.recOnMem`. -/
def JVal.recOnMemObj {P : JVal → Prop}
    (hnull : P .jnull) (hbool : ∀ b, P (.jbool b)) (hnum : ∀ m, P (.jnum m))
    (hstr : ∀ s, P (.jstr s))
    (harr : ∀ xs, (∀ x ∈ xs, P x) → P (.jarr xs))
    (hobj : ∀ fs, (∀ p ∈ fs, P (Prod.snd p)) → P (.jobj fs)) :
    ∀ (fs : List (String × JVal)), ∀ p ∈ fs, P (Prod.snd p)
  | [], p, hp => absurd hp (List.not_mem_nil p)
  | q :: qs, p, hp =>
      Or.elim (List.mem_cons.mp hp)
        (fun h1 => h1 ▸ JVal.recOnMem hnull hbool hnum hstr harr hobj (Prod.snd q))
        (fun h2 => JVal.recOnMemObj hnull hbool hnum hstr harr hobj qs p h2)

end

/-- The node's pending flag agrees with "strictly deeper than 2". -/
def pendingMatchesDepthP (i : NodeInfo) (_ : List Node) : Bool :=
  i.isPending == decide (i.depth > 2)

/-- The node is not pending. -/
def notPendingP (i : NodeInfo) (_ : List Node) : Bool := !i.isPending

theorem childBase_isPending (k : String) (v : JVal) (d : Nat) (pd : JVal) (late : Bool) :
    (childBase k v d pd late).isPending = (decide (d > 1) && !late) := rfl

theorem childBase_depth (k : String) (v : JVal) (d : Nat) (pd : JVal) (late : Bool) :
    (childBase k v d pd late).depth = d + 1 := rfl

theorem pendingMatchesDepthP_childBase (k : String) (v : JVal) (d : Nat) (pd : JVal)
    (cs : List Node) : pendingMatchesDepthP (childBase k v d pd false) cs = true := by
  rw [pendingMatchesDepthP, childBase_isPending, childBase_depth]
  by_cases h : d > 1
  · have h2 : d + 1 > 2 := by omega
    simp [h, h2]
  · have h2 : ¬(d + 1 > 2) := by omega
    simp [h, h2]

theorem nodeChildren_pendingMatchesDepth :
    ∀ v, ∀ d pd, allListB pendingMatchesDepthP (nodeChildren v d pd false) = true := by
  refine JVal.recOnMem ?_ ?_ ?_ ?_ ?_ ?_
  · intro d pd; rfl
  · intro b d pd; rfl
  · intro m d pd; rfl
  · intro s d pd; rfl
  · intro xs ih d pd
    rw [nodeChildren]
    have harr : ∀ (ys : List JVal), (∀ y ∈ ys, ∀ d2 pd2,
        allListB pendingMatchesDepthP (nodeChildren y d2 pd2 false) = true) →
        ∀ j, allListB pendingMatchesDepthP (nodeChildrenArr ys j d pd false) = true := by
      intro ys
      induction ys with
      | nil => intro _ j; rfl
      | cons y ys ihl =>
          intro hmem j
          rw [nodeChildrenArr, allListB, allB_mk,
            pendingMatchesDepthP_childBase,
            hmem y (List.mem_cons_self y ys) (d + 1) pd,
            ihl (fun z hz => hmem z (List.mem_cons_of_mem y hz)) (j + 1)]
          rfl
    exact harr xs ih 0
  · intro fs ih d pd
    rw [nodeChildren]
    have hobj : ∀ (gs : List (String × JVal)), (∀ p ∈ gs, ∀ d2 pd2,
        allListB pendingMatchesDepthP (nodeChildren (Prod.snd p) d2 pd2 false) = true) →
        allListB pendingMatchesDepthP (nodeChildrenObj gs d pd false) = true := by
      intro gs
      induction gs with
      | nil => intro _; rfl
      | cons g gs ihl =>
          intro hmem
          cases g with
          | mk k v =>
              rw [nodeChildrenObj, allListB, allB_mk,
                pendingMatchesDepthP_childBase,
                hmem (k, v) (List.mem_cons_self (k, v) gs) (d + 1) pd,
                ihl (fun z hz => hmem z (List.mem_cons_of_mem (k, v) hz))]
              rfl
    exact hobj fs ih

theorem notPendingP_childBase (k : String) (v : JVal) (d : Nat) (pd : JVal)
    (cs : List Node) : notPendingP (childBase k v d pd true) cs = true := by
  rw [notPendingP, childBase_isPending]
  simp

theorem nodeChildren_late_notPending :
    ∀ v, ∀ d pd, allListB notPendingP (nodeChildren v d pd true) = true := by
  refine JVal.recOnMem ?_ ?_ ?_ ?_ ?_ ?_
  · intro d pd; rfl
  · intro b d pd; rfl
  · intro m d pd; rfl
  · intro s d pd; rfl
  · intro xs ih d pd
    rw [nodeChildren]
    have harr : ∀ (ys : List JVal), (∀ y ∈ ys, ∀ d2 pd2,
        allListB notPendingP (nodeChildren y d2 pd2 true) = true) →
        ∀ j, allListB notPendingP (nodeChildrenArr ys j d pd true) = true := by
      intro ys
      induction ys with
      | nil => intro _ j; rfl
      | cons y ys ihl =>
          intro hmem j
          rw [nodeChildrenArr, allListB, allB_mk, notPendingP_childBase,
            hmem y (List.mem_cons_self y ys) (d + 1) pd,
            ihl (fun z hz => hmem z (List.mem_cons_of_mem y hz)) (j + 1)]
          rfl
    exact harr xs ih 0
  · intro fs ih d pd
    rw [nodeChildren]
    have hobj : ∀ (gs : List (String × JVal)), (∀ p ∈ gs, ∀ d2 pd2,
        allListB notPendingP (nodeChildren (Prod.snd p) d2 pd2 true) = true) →
        allListB notPendingP (nodeChildrenObj gs d pd true) = true := by
      intro gs
      induction gs with
      | nil => intro _; rfl
      | cons g gs ihl =>
          intro hmem
          cases g with
          | mk k v =>
              rw [nodeChildrenObj, allListB, allB_mk, notPendingP_childBase,
                hmem (k, v) (List.mem_cons_self (k, v) gs) (d + 1) pd,
                ihl (fun z hz => hmem z (List.mem_cons_of_mem (k, v) hz))]
              rfl
    exact hobj fs ih

/-- The spec's claimed invariant: pending iff strictly deeper than 1. -/
def pendingClaimP (i : NodeInfo) (_ : List Node) : Bool :=
  i.isPending == decide (i.depth > 1)

/-- C1 (counterexample to the claim as stated): in the initial build of
`{"a": {"b": {"c": 1}}}`, the node `b` has depth 2 > 1 yet is *not*
pending — `createSubnode` computes the flag from the parent's depth, so
the claimed "pending iff depth > 1" fails. -/
theorem c1_counterexample :
    allB pendingClaimP
      (create (.jobj [("a", .jobj [("b", .jobj [("c", .jnum 1)])])])) = false := by
  decide

/-- C1 (amended): the initial build (`create`, `late = false`) marks a
node pending exactly when its depth exceeds 2 — the eagerly
materializable horizon is the root, its children and its grandchildren
(depth ≤ 2) — and any `createSubnode` run with the immediate flag
(`late = true`) produces no pending nodes at all. -/
theorem c1_pending_iff_depth_gt_two :
    (∀ v, allB pendingMatchesDepthP (create v) = true) ∧
    (∀ v d pd, allListB notPendingP (nodeChildren v d pd true) = true) := by
  constructor
  · intro v
    rw [create]
    try dsimp only []
    rw [allB_mk, nodeChildren_pendingMatchesDepth v 0 v]
    rfl
  · exact nodeChildren_late_notPending

/-! ## Depth invariant (C7) -/

/-- Every direct child sits exactly one level deeper than its parent. -/
def depthLinkP (i : NodeInfo) (cs : List Node) : Bool :=
  cs.all (fun c => c.info.depth == i.depth + 1)

theorem nodeChildren_depth :
    ∀ v, ∀ d pd late, allListB depthLinkP (nodeChildren v d pd late) = true ∧
      ∀ c ∈ nodeChildren v d pd late, c.info.depth = d + 1 := by
  refine JVal.recOnMem ?_ ?_ ?_ ?_ ?_ ?_
  · intro d pd late; exact ⟨rfl, by intro c hc; cases hc⟩
  · intro b d pd late; exact ⟨rfl, by intro c hc; cases hc⟩
  · intro m d pd late; exact ⟨rfl, by intro c hc; cases hc⟩
  · intro s d pd late; exact ⟨rfl, by intro c hc; cases hc⟩
  · intro xs ih d pd late
    rw [nodeChildren]
    have harr : ∀ (ys : List JVal), (∀ y ∈ ys, ∀ d2 pd2 late2,
        allListB depthLinkP (nodeChildren y d2 pd2 late2) = true ∧
          ∀ c ∈ nodeChildren y d2 pd2 late2, c.info.depth = d2 + 1) →
        ∀ j, allListB depthLinkP (nodeChildrenArr ys j d pd late) = true ∧
          ∀ c ∈ nodeChildrenArr ys j d pd late, c.info.depth = d + 1 := by
      intro ys
      induction ys with
      | nil => intro _ j; exact ⟨rfl, by intro c hc; cases hc⟩
      | cons y ys ihl =>
          intro hmem j
          obtain ⟨hy1, hy2⟩ := hmem y (List.mem_cons_self y ys) (d + 1) pd late
          obtain ⟨hr1, hr2⟩ := ihl (fun z hz => hmem z (List.mem_cons_of_mem y hz)) (j + 1)
          constructor
          · rw [nodeChildrenArr, allListB, allB_mk, hy1, hr1]
            have hdl : depthLinkP (childBase (toString j) y d pd late)
                (nodeChildren y (d + 1) pd late) = true := by
              rw [depthLinkP]
              rw [List.all_eq_true]
              intro c hc
              rw [childBase_depth]
              simp [hy2 c hc]
            rw [hdl]
            rfl
          · intro c hc
            rw [nodeChildrenArr] at hc
            rcases List.mem_cons.mp hc with h1 | h2
            · rw [h1, Node.info_mk, childBase_depth]
            · exact hr2 c h2
    exact harr xs ih 0
  · intro fs ih d pd late
    rw [nodeChildren]
    have hobj : ∀ (gs : List (String × JVal)), (∀ p ∈ gs, ∀ d2 pd2 late2,
        allListB depthLinkP (nodeChildren (Prod.snd p) d2 pd2 late2) = true ∧
          ∀ c ∈ nodeChildren (Prod.snd p) d2 pd2 late2, c.info.depth = d2 + 1) →
        allListB depthLinkP (nodeChildrenObj gs d pd late) = true ∧
          ∀ c ∈ nodeChildrenObj gs d pd late, c.info.depth = d + 1 := by
      intro gs
      induction gs with
      | nil => intro _; exact ⟨rfl, by intro c hc; cases hc⟩
      | cons g gs ihl =>
          intro hmem
          cases g with
          | mk k v =>
              obtain ⟨hy1, hy2⟩ := hmem (k, v) (List.mem_cons_self (k, v) gs) (d + 1) pd late
              obtain ⟨hr1, hr2⟩ := ihl (fun z hz => hmem z (List.mem_cons_of_mem (k, v) hz))
              constructor
              · rw [nodeChildrenObj, allListB, allB_mk, hy1, hr1]
                have hdl : depthLinkP (childBase k v d pd late)
                    (nodeChildren v (d + 1) pd late) = true := by
                  rw [depthLinkP]
                  rw [List.all_eq_true]
                  intro c hc
                  rw [childBase_depth]
                  simp [hy2 c hc]
                rw [hdl]
                rfl
              · intro c hc
                rw [nodeChildrenObj] at hc
                rcases List.mem_cons.mp hc with h1 | h2
                · rw [h1, Node.info_mk, childBase_depth]
                · exact hr2 c h2
    exact hobj fs ih

/-- C7: `create` builds a tree whose root has depth 0 and in which
every child's depth is its parent's depth plus one — i.e. every node's
depth is the length of its ancestor chain. -/
theorem c7_depth_is_ancestor_chain_length (v : JVal) :
    (create v).info.depth = 0 ∧ allB depthLinkP (create v) = true := by
  constructor
  · rw [create]
    rfl
  · rw [create]
    try dsimp only []
    rw [allB_mk, (nodeChildren_depth v 0 v false).1]
    simp only [Bool.and_true]
    rw [depthLinkP, List.all_eq_true]
    intro c hc
    simp [(nodeChildren_depth v 0 v false).2 c hc]
    rfl

/-! ## C4: two-segment pointer resolution -/

/-- Modelled from the spec's words (C4): within a pointer segment,
every `~1` stands for a literal slash, so the segment's effective name
is the stored text with each (leftmost, non-overlapping) `~1` replaced
by `/`. -/
def specUnescapeSeg : List Char → List Char
  | [] => []
  | '~' :: '1' :: rest => '/' :: specUnescapeSeg rest
  | c :: rest => c :: specUnescapeSeg rest

/-- Modelled from the spec's words (C4): `resolvePointer` on a
two-segment pointer `#/<segment1>/<segment2>` looks up
`documentRoot[segment1][segment2]`, each segment unescaped. -/
def specResolvePointer (root : JVal) (seg1 seg2 : List Char) : Option (Option JVal) :=
  jsIndex2 root ⟨specUnescapeSeg seg1⟩ ⟨specUnescapeSeg seg2⟩

theorem unescTilde_cons_ne (c : Char) (l : List Char)
    (h : ∀ l1, c = '~' → l = '1' :: l1 → False) :
    unescTilde (c :: l) = c :: unescTilde l := by
  rw [unescTilde.eq_def]
  split
  · rename_i heq; cases heq
  · rename_i rest heq
    injection heq with h1 h2
    exact absurd h2 (fun hl => h rest h1 hl)
  · rename_i c2 rest2 heq
    injection heq with h1 h2
    rw [h1, h2]

theorem specUnescapeSeg_cons_ne (c : Char) (l : List Char)
    (h : ∀ l1, c = '~' → l = '1' :: l1 → False) :
    specUnescapeSeg (c :: l) = c :: specUnescapeSeg l := by
  rw [specUnescapeSeg.eq_def]
  split
  · rename_i heq; cases heq
  · rename_i rest heq
    injection heq with h1 h2
    exact absurd h2 (fun hl => h rest h1 hl)
  · rename_i c2 rest2 heq
    injection heq with h1 h2
    rw [h1, h2]

theorem specUnescapeSeg_eq (l : List Char) : specUnescapeSeg l = unescTilde l := by
  induction l using unescTilde.induct with
  | case1 => rfl
  | case2 rest ih =>
      rw [show specUnescapeSeg ('~' :: '1' :: rest) = '/' :: specUnescapeSeg rest from rfl,
          show unescTilde ('~' :: '1' :: rest) = '/' :: unescTilde rest from rfl, ih]
  | case3 c rest h ih =>
      rw [specUnescapeSeg_cons_ne c rest h, unescTilde_cons_ne c rest h, ih]

theorem unescTilde_append_pipe : ∀ (xs ys : List Char),
    unescTilde (xs ++ '|' :: ys) = unescTilde xs ++ '|' :: unescTilde ys := by
  intro xs
  induction xs using unescTilde.induct with
  | case1 => intro ys; rfl
  | case2 rest ih => intro ys; simp [unescTilde, ih]
  | case3 c rest h ih =>
      intro ys
      rw [show (c :: rest) ++ '|' :: ys = c :: (rest ++ '|' :: ys) from rfl]
      have hside : ∀ l1, c = '~' → rest ++ '|' :: ys = '1' :: l1 → False := by
        intro l1 hc hr
        cases rest with
        | nil =>
            rw [List.nil_append] at hr
            injection hr with ha hb
            exact absurd ha (by decide)
        | cons r rs =>
            rw [List.cons_append] at hr
            injection hr with ha hb
            exact h rs hc (by rw [ha])
      rw [unescTilde_cons_ne c (rest ++ '|' :: ys) hside, ih, unescTilde_cons_ne c rest h]
      rfl

theorem unescTilde_mem (c : Char) (l : List Char) (hm : c ∈ unescTilde l) :
    c = '/' ∨ c ∈ l := by
  induction l using unescTilde.induct with
  | case1 => exact absurd hm (List.not_mem_nil c)
  | case2 rest ih =>
      rw [show unescTilde ('~' :: '1' :: rest) = '/' :: unescTilde rest from rfl] at hm
      rcases List.mem_cons.mp hm with h1 | h2
      · exact .inl h1
      · rcases ih h2 with h3 | h4
        · exact .inl h3
        · exact .inr (List.mem_cons_of_mem _ (List.mem_cons_of_mem _ h4))
  | case3 c2 rest hside ih =>
      rw [unescTilde_cons_ne c2 rest hside] at hm
      rcases List.mem_cons.mp hm with h1 | h2
      · exact .inr (h1 ▸ List.mem_cons_self _ _)
      · rcases ih h2 with h3 | h4
        · exact .inl h3
        · exact .inr (List.mem_cons_of_mem _ h4)

theorem slashToPipe_cons (c : Char) (l : List Char) :
    slashToPipe (c :: l) = (if c = '/' then '|' else c) :: slashToPipe l := rfl

theorem slashToPipe_append (xs ys : List Char) :
    slashToPipe (xs ++ ys) = slashToPipe xs ++ slashToPipe ys :=
  List.map_append _ xs ys

theorem slashToPipe_no_slash (l : List Char) (h : '/' ∉ l) : slashToPipe l = l := by
  induction l with
  | nil => rfl
  | cons c cs ih =>
      have hc : ¬ (c = '/') := fun he => h (he ▸ List.mem_cons_self _ _)
      rw [slashToPipe_cons, if_neg hc, ih (fun hr => h (List.mem_cons_of_mem _ hr))]

theorem splitPipe_cons_ne (c : Char) (l : List Char) (g : List Char) (gs : List (List Char))
    (hc : c = '|' → False) (hl : splitPipe l = g :: gs) :
    splitPipe (c :: l) = (c :: g) :: gs := by
  rw [splitPipe.eq_def]
  split
  · rename_i heq; cases heq
  · rename_i rest heq
    injection heq with h1 h2
    exact absurd h1 hc
  · rename_i c2 rest heq
    injection heq with h1 h2
    rw [← h1, ← h2, hl]

theorem splitPipe_no_pipe : ∀ (l : List Char), '|' ∉ l → splitPipe l = [l] := by
  intro l
  induction l with
  | nil => intro _; rfl
  | cons c cs ih =>
      intro h
      have hc : c = '|' → False := fun he => h (he ▸ List.mem_cons_self _ _)
      exact splitPipe_cons_ne c cs cs [] hc (ih (fun hr => h (List.mem_cons_of_mem _ hr)))

theorem splitPipe_append_pipe (xs ys : List Char) (h : '|' ∉ xs) :
    splitPipe (xs ++ '|' :: ys) = xs :: splitPipe ys := by
  induction xs with
  | nil => rfl
  | cons c cs ih =>
      have hc : c = '|' → False := fun he => h (he ▸ List.mem_cons_self _ _)
      rw [List.cons_append]
      exact splitPipe_cons_ne c _ cs (splitPipe ys) hc
        (ih (fun hr => h (List.mem_cons_of_mem _ hr)))

/-- C4 (amended): for a reference node whose placeholder child holds
`#/<seg1>/<seg2>` where the segments contain no raw `/` (slashes are
escaped `~1`) **and no `|`**, `resolveref` returns
`documentRoot[seg1'][seg2']` with each segment's `~1` unescaped to `/`,
exactly as the spec describes. -/
theorem c4_two_segment_pointer_resolution (n c0 : Node) (rest : List Node)
    (seg1 seg2 : List Char)
    (hch : n.children = c0 :: rest)
    (hval : c0.info.value = .jstr ⟨'#' :: '/' :: (seg1 ++ '/' :: seg2)⟩)
    (hs1 : '/' ∉ seg1) (hs2 : '/' ∉ seg2)
    (hp1 : '|' ∉ seg1) (hp2 : '|' ∉ seg2) :
    resolverefE n = specResolvePointer n.info.parsedData seg1 seg2 := by
  have hu1 : '|' ∉ unescTilde seg1 := by
    intro hm
    rcases unescTilde_mem _ _ hm with h | h
    · exact absurd h (by decide)
    · exact hp1 h
  have hu2 : '|' ∉ unescTilde seg2 := by
    intro hm
    rcases unescTilde_mem _ _ hm with h | h
    · exact absurd h (by decide)
    · exact hp2 h
  have hpipe : splitPipe (unescTilde (slashToPipe ('#' :: '/' :: (seg1 ++ '/' :: seg2))))
      = [['#'], unescTilde seg1, unescTilde seg2] := by
    have e1 : slashToPipe ('#' :: '/' :: (seg1 ++ '/' :: seg2))
        = '#' :: '|' :: (seg1 ++ '|' :: seg2) := by
      rw [show slashToPipe ('#' :: '/' :: (seg1 ++ '/' :: seg2))
            = '#' :: '|' :: slashToPipe (seg1 ++ '/' :: seg2) from rfl,
          slashToPipe_append, slashToPipe_cons, if_pos rfl,
          slashToPipe_no_slash seg1 hs1, slashToPipe_no_slash seg2 hs2]
    have e2 : unescTilde ('#' :: '|' :: (seg1 ++ '|' :: seg2))
        = '#' :: '|' :: (unescTilde seg1 ++ '|' :: unescTilde seg2) := by
      rw [unescTilde_cons_ne '#' _ (fun l1 hc _ => absurd hc (by decide)),
          unescTilde_cons_ne '|' _ (fun l1 hc _ => absurd hc (by decide)),
          unescTilde_append_pipe]
    rw [e1, e2,
        show splitPipe ('#' :: '|' :: (unescTilde seg1 ++ '|' :: unescTilde seg2))
          = ['#'] :: splitPipe (unescTilde seg1 ++ '|' :: unescTilde seg2) from rfl,
        splitPipe_append_pipe _ _ hu1, splitPipe_no_pipe _ hu2]
  rw [resolverefE, hch]
  simp only [List.head?_cons]
  rw [hval]
  dsimp only
  rw [hpipe]
  simp only [List.map_cons, List.get?]
  rw [specResolvePointer, specUnescapeSeg_eq, specUnescapeSeg_eq]
  rfl

/-- Document whose referenced segments contain a literal `|`: the
pointer `#/a|b/c` names `documentRoot["a|b"]["c"]` under the spec's
reading, but the `|`-based split sees segments `a` and `b`. -/
def c4doc : JVal :=
  .jobj [("x", .jobj [("$ref", .jstr "#/a|b/c")]),
         ("a|b", .jobj [("c", .jnum 42)]),
         ("a", .jobj [("b", .jnum 7)])]

/-- The reference node `x` of `c4doc`. -/
def c4node : Node := nthChild (create c4doc) 0

/-- C4 counterexample: `x` is a reference node of the claimed shape,
with pointer segments `a|b` and `c` free of `/` and of `~1` escapes,
yet `resolveref` returns `documentRoot["a"]["b"] = 7` instead of the
spec's `documentRoot["a|b"]["c"] = 42`: the interleaved
slash-to-pipe / pipe-split round trip breaks segments at literal `|`
characters. -/
theorem c4_counterexample :
    (c4node.children.map (fun c => c.info.key)) = [some "$ref"] ∧
    (c4node.children.map (fun c => c.info.value))
      = [.jstr ⟨'#' :: '/' :: ("a|b".data ++ '/' :: "c".data)⟩] ∧
    ('/' ∉ "a|b".data ∧ '/' ∉ "c".data) ∧
    resolverefE c4node = some (some (.jnum 7)) ∧
    specResolvePointer c4node.info.parsedData "a|b".data "c".data
      = some (some (.jnum 42)) :=
  ⟨by decide, rfl, by decide, rfl, rfl⟩

/-- Document with a well-formed two-segment pointer `#/defs/Y`. -/
def c4wdoc : JVal :=
  .jobj [("x", .jobj [("$ref", .jstr "#/defs/Y")]),
         ("defs", .jobj [("Y", .jobj [("p", .jnum 1), ("q", .jnum 2)])])]

/-- The reference node `x` of `c4wdoc`. -/
def c4wnode : Node := nthChild (create c4wdoc) 0

/-- The placeholder child of `c4wnode`. -/
def c4wc0 : Node := nthChild c4wnode 0

theorem c4_witness :
    c4wnode.children = c4wc0 :: [] ∧
    c4wc0.info.value = .jstr ⟨'#' :: '/' :: ("defs".data ++ '/' :: "Y".data)⟩ ∧
    resolverefE c4wnode = specResolvePointer c4wnode.info.parsedData "defs".data "Y".data ∧
    resolverefE c4wnode = some (some (.jobj [("p", .jnum 1), ("q", .jnum 2)])) :=
  ⟨rfl, rfl,
   c4_two_segment_pointer_resolution c4wnode c4wc0 [] "defs".data "Y".data rfl rfl
     (by decide) (by decide) (by decide) (by decide),
   rfl⟩

/-! ## C10: falsy keys versus falsy values in createNode -/

/-- C10: node construction coerces the falsy key `""` to null
(`opt.key || null`), while falsy property values (`0`, `false`,
`null`, `""`) are stored unchanged because the value is taken via an
own-property check; an object build maps every property name through
exactly this coercion. -/
theorem c10_falsy_key_coerced_falsy_value_kept :
    (∀ (k : String) (v : JVal) (d : Nat) (pd : JVal) (late : Bool),
        (childNode k v d pd late).info.key = (if k = "" then none else some k)) ∧
    (∀ (k : String) (v : JVal) (d : Nat) (pd : JVal) (late : Bool),
        isEmptyObject v = false → (childNode k v d pd late).info.value = v) ∧
    (∀ (fs : List (String × JVal)) (d : Nat) (pd : JVal) (late : Bool),
        (nodeChildrenObj fs d pd late).map (fun c => c.info.key)
          = fs.map (fun p => if p.1 = "" then none else some p.1)) := by
  refine ⟨fun k v d pd late => rfl, ?_, ?_⟩
  · intro k v d pd late h
    show (if isEmptyObject v then JVal.jstr "\x7b\x7d" else v) = v
    simp [h]
  · intro fs d pd late
    induction fs with
    | nil => rfl
    | cons p rest ih =>
        rw [show nodeChildrenObj (p :: rest) d pd late
              = .mk (childBase p.1 p.2 d pd late) (nodeChildren p.2 (d + 1) pd late)
                  :: nodeChildrenObj rest d pd late from by
            rcases p with ⟨k, v⟩; rfl]
        rw [List.map_cons, List.map_cons, ih]
        rfl

theorem c10_witness :
    (childNode "" (.jnum 0) 0 .jnull false).info.key = none ∧
    (childNode "x" (.jnum 0) 0 .jnull false).info.value = .jnum 0 ∧
    (childNode "x" (.jbool false) 0 .jnull false).info.value = .jbool false ∧
    (childNode "x" .jnull 0 .jnull false).info.value = .jnull ∧
    (childNode "x" (.jstr "") 0 .jnull false).info.value = .jstr "" := by
  refine ⟨?_, ?_, ?_, ?_, ?_⟩
  · rw [c10_falsy_key_coerced_falsy_value_kept.1 "" (.jnum 0) 0 .jnull false]
    rfl
  · exact c10_falsy_key_coerced_falsy_value_kept.2.1 "x" (.jnum 0) 0 .jnull false (by decide)
  · exact c10_falsy_key_coerced_falsy_value_kept.2.1 "x" (.jbool false) 0 .jnull false
      (by decide)
  · exact c10_falsy_key_coerced_falsy_value_kept.2.1 "x" .jnull 0 .jnull false (by decide)
  · exact c10_falsy_key_coerced_falsy_value_kept.2.1 "x" (.jstr "") 0 .jnull false (by decide)

/-! ## C9: build accepts parsed data or text; parse errors propagate -/

/-- C9: `build` (the `create` entry point fed through `getJsonObject`)
accepts either an already-parsed document or its textual JSON form: a
string input whose parse fails propagates the `ParseError` to the
caller, a string input that parses to `v` builds `create v`, and a
non-string input passes through untouched and builds its root node. -/
theorem c9_parse_error_propagates_and_valid_input_builds_root :
    (∀ (parse : String → Except String JVal) (s : String) (e : String),
        parse s = .error e → createFrom parse (.jstr s) = .error e) ∧
    (∀ (parse : String → Except String JVal) (s : String) (v : JVal),
        parse s = .ok v → createFrom parse (.jstr s) = .ok (create v)) ∧
    (∀ (parse : String → Except String JVal) (v : JVal),
        (∀ s, v ≠ .jstr s) → createFrom parse v = .ok (create v)) := by
  refine ⟨?_, ?_, ?_⟩
  · intro parse s e h
    rw [createFrom, show getJsonObject parse (.jstr s) = parse s from rfl, h]
    rfl
  · intro parse s v h
    rw [createFrom, show getJsonObject parse (.jstr s) = parse s from rfl, h]
    rfl
  · intro parse v h
    cases v with
    | jstr s => exact absurd rfl (h s)
    | jnull => rfl
    | jbool b => rfl
    | jnum n => rfl
    | jarr xs => rfl
    | jobj fs => rfl

/-- A concrete stand-in for the platform `JSON.parse`: accepts exactly
the text `"1"`. -/
def c9parse : String → Except String JVal :=
  fun s => if s = "1" then .ok (.jnum 1) else .error "ParseError"

theorem c9_witness :
    createFrom c9parse (.jstr "bad") = .error "ParseError" ∧
    createFrom c9parse (.jstr "1") = .ok (create (.jnum 1)) ∧
    createFrom c9parse (.jbool true) = .ok (create (.jbool true)) :=
  ⟨c9_parse_error_propagates_and_valid_input_builds_root.1 c9parse "bad" "ParseError" rfl,
   c9_parse_error_propagates_and_valid_input_builds_root.2.1 c9parse "1" (.jnum 1) rfl,
   c9_parse_error_propagates_and_valid_input_builds_root.2.2 c9parse (.jbool true)
     (fun _ h => JVal.noConfusion h)⟩

/-! ## C8: totality of walk, expand and collapse -/

theorem walkCollectList_length_of (cs : List Node)
    (h : ∀ c ∈ cs, (walkCollect c).length = Node.size c) :
    (walkCollectList cs).length = Node.sizeList cs := by
  induction cs with
  | nil => rfl
  | cons c cs ih =>
      rw [walkCollectList, List.length_append, Node.sizeList,
          h c (List.mem_cons_self c cs), ih (fun d hd => h d (List.mem_cons_of_mem c hd))]

theorem walkCollect_length : ∀ n, (walkCollect n).length = Node.size n := by
  refine Node.recOnMem ?_
  intro i cs ih
  rw [walkCollect, List.length_cons, Node.size, walkCollectList_length_of cs ih,
      Nat.add_comm]

theorem collapseList_some_of (rd : Nat) (cs : List Node)
    (hv : ∀ c ∈ cs, (collapseGoE rd c).isSome = true)
    : ∃ ms, collapseListE rd cs = some ms := by
  induction cs with
  | nil => exact ⟨[], rfl⟩
  | cons c cs ih =>
      obtain ⟨m, hm⟩ := Option.isSome_iff_exists.mp (hv c (List.mem_cons_self c cs))
      obtain ⟨ms, hms⟩ := ih (fun d hd => hv d (List.mem_cons_of_mem c hd))
      exact ⟨m :: ms, by simp [collapseListE, hm, hms]⟩

theorem collapseGo_isSome : ∀ n, allB elSomeP n = true → ∀ rd, (collapseGoE rd n).isSome = true := by
  refine Node.recOnMem ?_
  intro i cs ih h rd
  rw [allB_mk] at h
  simp only [Bool.and_eq_true] at h
  obtain ⟨h1, h2⟩ := h
  cases hel : i.el with
  | none => rw [elSomeP, hel] at h1; simp at h1
  | some e =>
      obtain ⟨ms, hms⟩ := collapseList_some_of rd cs (fun c hc => ih c hc (by
        rw [allListB_eq_true_iff] at h2
        exact h2 c hc) rd)
      by_cases hd : i.depth > rd
      · by_cases hcs : cs.isEmpty
        · simp [collapseGoE, hel, hms, hd, hcs]
        · simp [collapseGoE, hel, hms, hd, hcs]
      · by_cases hcs : cs.isEmpty
        · simp [collapseGoE, hel, hms, hd, hcs]
        · simp [collapseGoE, hel, hms, hd, hcs]

/-- C8 (amended): the walk (`traverse`) is total — it visits every node
of the tree — but `expand` and `collapse` are total only on trees whose
every node carries a DOM element (a materialized tree): there they
never fail.  On a tree fresh from `build`, whose elements are still
null, both throw (see the counterexample). -/
theorem c8_walk_total_expand_collapse_need_elements :
    (∀ n : Node, (walkCollect n).length = Node.size n) ∧
    (∀ n : Node, allB elSomeP n = true →
        (expandE n).isSome = true ∧ (collapseE n).isSome = true) := by
  refine ⟨walkCollect_length, ?_⟩
  intro n h
  constructor
  · rw [expandE_eq n h]
    rfl
  · rw [collapseE]
    exact collapseGo_isSome n h n.info.depth

/-- C8 counterexample: on the tree built for `{"a": 1}` — before any
render, so every `el` is still null — both `expand` and `collapse`
throw a TypeError (`el.classList` of null). -/
theorem c8_counterexample :
    expandE (create (.jobj [("a", .jnum 1)])) = none ∧
    collapseE (create (.jobj [("a", .jnum 1)])) = none :=
  ⟨rfl, rfl⟩

/-- A two-node materialized tree: every node carries an element. -/
def c8n : Node :=
  .mk { key := some "object", value := .jobj [("a", .jnum 1)], type_ := some "object",
        hasParent := false, depth := 0, isExpanded := true, isPending := false,
        parsedData := .jobj [("a", .jnum 1)], dispose := true,
        el := some { id := 0, hidden := false, hasCaret := true, caretDown := true,
                     keyText := "object", sizeText := some "\x7b1\x7d", valueText := none,
                     valueType := none, indentPx := 0 } }
    [.mk { key := some "a", value := .jnum 1, type_ := some "number", hasParent := true,
           depth := 1, isExpanded := false, isPending := false,
           parsedData := .jobj [("a", .jnum 1)], dispose := false,
           el := some { id := 1, hidden := false, hasCaret := false, caretDown := false,
                        keyText := "a", sizeText := none, valueText := some "1",
                        valueType := some "number", indentPx := 18 } } []]

theorem c8_witness :
    allB elSomeP c8n = true ∧
    (walkCollect c8n).length = Node.size c8n ∧
    (expandE c8n).isSome = true ∧ (collapseE c8n).isSome = true :=
  ⟨by decide, c8_walk_total_expand_collapse_need_elements.1 c8n,
   (c8_walk_total_expand_collapse_need_elements.2 c8n (by decide)).1,
   (c8_walk_total_expand_collapse_need_elements.2 c8n (by decide)).2⟩

/-! ## C3: size labels versus children count -/

/-- The numeral shown inside a size label: its digit characters. -/
def labelNumeral (s : String) : String :=
  ⟨s.data.filter (fun c => c.isDigit)⟩

/-- The claim's invariant at one node: wherever a size label is
displayed, its numeral equals `children.length`. -/
def c3ClaimCheckB (n : Node) : Bool :=
  match n.info.el with
  | some e =>
      match e.sizeText with
      | some s => labelNumeral s = toString n.children.length
      | none => true
  | none => true

/-- A document whose depth-2 object `x` holds a `$ref` placeholder, so
the initial render applies the reference-count correction to `x`'s
label. -/
def c3doc : JVal :=
  .jobj [("w", .jobj [("x", .jobj [("$ref", .jstr "#/defs/Y")])]),
         ("defs", .jobj [("Y", .jobj [("p", .jnum 1), ("q", .jnum 2)])])]

theorem c3rsome : (renderE (create c3doc) 0).isSome = true := by decide

/-- The tree for `c3doc` as the initial render leaves it. -/
def c3rendered : Node := ((renderE (create c3doc) 0).get c3rsome).1

/-- The node `x` (child 0 of child 0) of the rendered tree. -/
def c3x : Node := nthChild (nthChild c3rendered 0) 0

set_option maxHeartbeats 4000000 in
theorem c3tsome : (toggleNodeE c3x 100).isSome = true := by decide

/-- `x` after its first interactive toggle (reference materialized). -/
def c3xt : Node := ((toggleNodeE c3x 100).get c3tsome).1

/-- C3 counterexample: in the rendered tree for `c3doc`, the container
`x` displays the corrected size label `{2}` (the resolved target's
element count) while `x.children.length` is still 1 (the literal
placeholder child), so the displayed numeral does not equal
`children.length`. -/
theorem c3_counterexample :
    c3x.info.type_ = some "object" ∧
    c3x.info.el.map (fun e => e.sizeText) = some (some "\x7b2\x7d") ∧
    c3x.children.length = 1 ∧
    c3ClaimCheckB c3x = false := by decide

set_option maxHeartbeats 4000000 in
/-- C3 (amended): a container's size label equals `children.length` at
element-creation time (`{n}` for objects, `[n]` for arrays), and this
is re-established when a reference node is materialized by its first
expansion; but between the render-time reference-count correction and
that first expansion, the corrected label shows the resolved target's
count while `children.length` is still 1: in the `c3doc` scenario `x`
is rendered with label `{2}` over one child, and after the first
toggle it has two children and the matching label `{2}`. -/
theorem c3_label_matches_children_at_creation_ref_correction_diverges :
    (∀ (n : Node) (cnt : Nat), n.info.type_ = some "object" →
        n.children.isEmpty = false →
        (createNodeElement n cnt).sizeText
          = some ("\x7b" ++ toString n.children.length ++ "\x7d")) ∧
    (∀ (n : Node) (cnt : Nat), n.info.type_ = some "array" →
        n.children.isEmpty = false →
        (createNodeElement n cnt).sizeText
          = some ("[" ++ toString n.children.length ++ "]")) ∧
    (c3x.info.el.map (fun e => e.sizeText) = some (some "\x7b2\x7d") ∧
      c3x.children.length = 1 ∧
      c3xt.info.el.map (fun e => e.sizeText) = some (some "\x7b2\x7d") ∧
      c3xt.children.length = 2 ∧
      c3ClaimCheckB c3xt = true) := by
  refine ⟨?_, ?_, by decide⟩
  · intro n cnt ht he
    rw [createNodeElement, if_neg (by rw [he]; exact Bool.false_ne_true), getSizeString, ht]
    rw [if_neg (by decide), if_pos rfl]
  · intro n cnt ht he
    rw [createNodeElement, if_neg (by rw [he]; exact Bool.false_ne_true), getSizeString, ht]
    rw [if_pos rfl]

theorem c3_witness :
    (createNodeElement (create (.jobj [("a", .jnum 1)])) 0).sizeText
      = some ("\x7b" ++ toString (create (.jobj [("a", .jnum 1)])).children.length ++ "\x7d") :=
  c3_label_matches_children_at_creation_ref_correction_diverges.1
    (create (.jobj [("a", .jnum 1)])) 0 rfl rfl

/-! ## C2: the $ref scenario of the spec -/

/-- The claim's document: `x`, holding the reference, is a direct child
of the root (depth 1). -/
def c2doc : JVal :=
  .jobj [("x", .jobj [("$ref", .jstr "#/defs/Y")]),
         ("defs", .jobj [("Y", .jobj [("p", .jnum 1), ("q", .jnum 2)])])]

theorem c2rsome : (renderE (create c2doc) 0).isSome = true := by decide

/-- The tree for `c2doc` as the initial render leaves it. -/
def c2rendered : Node := ((renderE (create c2doc) 0).get c2rsome).1

/-- The node `x` (child 0 of the root) of the rendered tree. -/
def c2x : Node := nthChild c2rendered 0

set_option maxHeartbeats 4000000 in
theorem c2tsome : (toggleNodeE c2x 100).isSome = true := by decide

/-- `x` after one interactive toggle. -/
def c2xt : Node := ((toggleNodeE c2x 100).get c2tsome).1

/-- C2 counterexample: for the claim's own document, `x` sits at depth
1, so its `$ref` placeholder (depth 2) is **not** pending
(`isPending` tests the parent's depth `> 1`).  The render-time
reference-count correction only fires on pending `$ref` nodes, so
`x`'s label reads `{1}`, not the claimed `{2}`; and the expansion-time
inlining only fires when `children[0].isPending`, so after one toggle
`x.children` still holds the single `$ref` child instead of the
claimed `p`, `q`. -/
theorem c2_counterexample :
    c2x.children.map (fun c => c.info.key) = [some "$ref"] ∧
    c2x.children.map (fun c => c.info.isPending) = [false] ∧
    c2x.info.el.map (fun e => e.sizeText) = some (some "\x7b1\x7d") ∧
    c2xt.info.isExpanded = true ∧
    c2xt.children.map (fun c => c.info.key) = [some "$ref"] := by decide

/-- A variant document with `x` one level deeper (depth 2), where the
reference machinery does engage. -/
def c2deepdoc : JVal :=
  .jobj [("w", .jobj [("x", .jobj [("$ref", .jstr "#/defs/Y")])]),
         ("defs", .jobj [("Y", .jobj [("p", .jnum 1), ("q", .jnum 2)])])]

theorem c2drsome : (renderE (create c2deepdoc) 0).isSome = true := by decide

/-- The tree for `c2deepdoc` as the initial render leaves it. -/
def c2drendered : Node := ((renderE (create c2deepdoc) 0).get c2drsome).1

/-- The node `x` (child 0 of child 0) of the rendered deep tree. -/
def c2dx : Node := nthChild (nthChild c2drendered 0) 0

set_option maxHeartbeats 4000000 in
theorem c2dtsome : (toggleNodeE c2dx 100).isSome = true := by decide

/-- Deep `x` after one interactive toggle. -/
def c2dxt : Node := ((toggleNodeE c2dx 100).get c2dtsome).1

set_option maxHeartbeats 4000000 in
/-- C2 (amended): the claimed before/after behavior holds when `x`
sits at depth 2 (document `{"w": {"x": {"$ref": "#/defs/Y"}}}` with
the same `defs`): before expansion `x` has exactly one placeholder
child keyed `$ref` and its rendered size label reads `{2}`; after
expanding `x` once, `x.children` holds exactly the two resolved
children keyed `p` and `q` in that order and no `$ref` child.  For the
claim's own document `x` is at depth 1 and neither the correction nor
the inlining fires (see the counterexample). -/
theorem c2_ref_scenario_holds_one_level_deeper :
    c2dx.children.map (fun c => c.info.key) = [some "$ref"] ∧
    c2dx.info.el.map (fun e => e.sizeText) = some (some "\x7b2\x7d") ∧
    c2dxt.children.map (fun c => c.info.key) = [some "p", some "q"] ∧
    ((c2dxt.children.map (fun c => c.info.key)).contains (some "$ref")) = false := by
  decide
